import Mathlib

/-!
Verification of the MaxSAT reduction engine of the UDL-IA-PR2 repository:
`auct_solver.py` (combinatorial-auction winner determination) and
`graph.py` (minimum vertex cover, maximum clique, maximum cut).

The `wcnf` module (class `WCNFFormula`) and the `msat_runner` module are
collaborators of the two source files that are not part of the sources here;
they are modelled from the specification (sections 3, 4.1 and 4.2).
Everything else is a direct shallow embedding of the Python source.
-/

namespace Wcnf

/-- Modelled from the spec: the `wcnf` module's weight argument of
`add_clause`.  `top` is the sentinel `wcnf.TOP_WEIGHT` ("a sentinel weight
strictly greater than the sum of all soft-clause weights, used to mark a
clause as hard"); `val w` is an ordinary soft weight. -/
inductive Weight where
  | top : Weight
  | val (w : Int) : Weight
deriving DecidableEq

/-- Modelled from the spec: the `wcnf.WCNFFormula` class (spec section 3):
`variables` is the count of Boolean decision variables allocated as
consecutive positive integers starting at 1, `hard` the ordered sequence of
hard clauses, `soft` the ordered sequence of (clause, weight) pairs.
A literal is a signed integer whose absolute value is the variable id. -/
structure WCNFFormula where
  num_vars : Nat := 0
  hard : List (List Int) := []
  soft : List (List Int × Int) := []
deriving DecidableEq

/-- Modelled from the spec: `WCNFFormula.new_var()` allocates and returns the
next unused variable id (spec section 4.1). -/
def WCNFFormula.new_var (f : WCNFFormula) : Nat × WCNFFormula :=
  (f.num_vars + 1, { f with num_vars := f.num_vars + 1 })

/-- Modelled from the spec: `WCNFFormula.add_clause(literals, weight)`
(spec section 4.1): if the weight is the `TOP_WEIGHT` sentinel the clause is
appended to the hard clauses, otherwise it is appended to the soft clauses
with that exact weight. -/
def WCNFFormula.add_clause (f : WCNFFormula) (lits : List Int) (w : Weight) :
    WCNFFormula :=
  match w with
  | .top => { f with hard := f.hard ++ [lits] }
  | .val w => { f with soft := f.soft ++ [(lits, w)] }

/-- Modelled from the spec: `WCNFFormula.sum_soft_weights()` returns the sum
of all soft-clause weights (spec section 4.1). -/
def WCNFFormula.sum_soft_weights (f : WCNFFormula) : Int :=
  (f.soft.map Prod.snd).sum

/-- Truth of a signed literal under an assignment of the variables. -/
def litSat (σ : Nat → Bool) (l : Int) : Bool :=
  if 0 < l then σ l.natAbs else ! σ l.natAbs

/-- A clause is satisfied when some literal of it is true. -/
def clauseSat (σ : Nat → Bool) (c : List Int) : Bool :=
  c.any (litSat σ)

/-- An assignment satisfies all hard clauses of a formula. -/
def hardSat (σ : Nat → Bool) (f : WCNFFormula) : Prop :=
  ∀ c ∈ f.hard, clauseSat σ c = true

/-- Total weight of the soft clauses falsified by an assignment. -/
def costFalsified (σ : Nat → Bool) (soft : List (List Int × Int)) : Int :=
  (soft.map (fun cw => if clauseSat σ cw.1 then 0 else cw.2)).sum

/-- Modelled from the spec: the `SolverPort` contract (spec section 4.2)
fails with an `Infeasible` condition exactly when no assignment satisfies
all hard clauses of the formula. -/
def Infeasible (f : WCNFFormula) : Prop :=
  ∀ σ : Nat → Bool, ¬ hardSat σ f

/-- Every literal of every clause of the formula refers to a variable id in
the range `[1, num_vars]` (spec section 8, first testable property). -/
def litsInRange (f : WCNFFormula) : Prop :=
  (∀ c ∈ f.hard, ∀ l ∈ c, 1 ≤ l.natAbs ∧ l.natAbs ≤ f.num_vars) ∧
  (∀ cw ∈ f.soft, ∀ l ∈ cw.1, 1 ≤ l.natAbs ∧ l.natAbs ≤ f.num_vars)

end Wcnf

namespace Auct

open Wcnf

/-- A parsed bid line of `auct_solver.py`: the raw token list `l` is kept in
`self.auctions`; its fields are the agent `l[0]`, the goods `l[1:-1]` and the
price `int(l[-1])` (the slices used by `manage_auction` and
`print_solution`). -/
structure Bid where
  agent : String
  goods : List String
  price : Int
deriving DecidableEq

instance : Inhabited Bid := ⟨⟨"", [], 0⟩⟩

/-- `Auction.manage_auction` (auct_solver.py lines 54-60): allocate one
variable for the bid, add the soft clause `[variable]` weighted by the bid's
price, and record every `(good, variable)` pair in `self.goods`.
`self.goods` is a Python `set`; it is modelled as a list with
insert-if-absent semantics (the list order is one representative of the
set's unspecified iteration order). -/
def manage_auction (st : WCNFFormula × List (String × Nat)) (bid : Bid) :
    WCNFFormula × List (String × Nat) :=
  let (v, f) := st.1.new_var
  let f := f.add_clause [(v : Int)] (.val bid.price)
  let goods := bid.goods.foldl
    (fun gs g => if (g, v) ∈ gs then gs else gs ++ [(g, v)]) st.2
  (f, goods)

/-- The per-bid phase of `Auction.parse_input_stream`: every bid line is
appended to `self.auctions` and processed by `manage_auction`, starting from
the fresh formula and the empty goods set of `Auction.__init__`. -/
def build_bids (bids : List Bid) : WCNFFormula × List (String × Nat) :=
  bids.foldl manage_auction ({}, [])

/-- The mutual-exclusion clause `[-good[1], -good2[1]]` of
`manage_incompatibilities`. -/
def incomp_clause (p q : String × Nat) : List Int :=
  [-(p.2 : Int), -(q.2 : Int)]

/-- The body of the inner loop of `manage_incompatibilities`
(auct_solver.py lines 65-66): same good, different bids, `bid1 < bid2`, and
the clause is not yet among the hard clauses. -/
def incomp_step (p : String × Nat) (f : WCNFFormula) (q : String × Nat) :
    WCNFFormula :=
  if p.1 = q.1 ∧ p.2 ≠ q.2 ∧ p.2 < q.2 ∧ incomp_clause p q ∉ f.hard then
    f.add_clause (incomp_clause p q) .top
  else f

/-- `Auction.manage_incompatibilities` (auct_solver.py lines 62-66): the
nested loop `for good in goods: for good2 in goods: ...` over the
good-ownership set. -/
def manage_incompatibilities (goods : List (String × Nat)) (f : WCNFFormula) :
    WCNFFormula :=
  goods.foldl (fun f1 p => goods.foldl (incomp_step p) f1) f

/-- Python's `list.index`: index of the first element equal to `b`
(`self.auctions.index(auction)` in `check_all_auctioneers_win`). -/
def first_index : List Bid → Bid → Nat
  | [], _ => 0
  | x :: xs, b => if x = b then 0 else first_index xs b + 1

/-- The clause built for one auctioneer by `check_all_auctioneers_win`
(auct_solver.py lines 44-49): for every bid row whose agent equals the
auctioneer, the 1-based index of the first bid row equal to it. -/
def auctions_of_auctioneer (auctions : List Bid) (a : String) : List Int :=
  (auctions.filter (fun b => decide (a = b.agent))).map
    (fun b => (first_index auctions b : Int) + 1)

/-- `Auction.check_all_auctioneers_win` (auct_solver.py lines 42-53): one
hard clause per declared auctioneer, containing the collected indices of its
bids as positive literals. -/
def check_all_auctioneers_win (auctioneers : List String)
    (auctions : List Bid) (f : WCNFFormula) : WCNFFormula :=
  auctioneers.foldl
    (fun f a => f.add_clause (auctions_of_auctioneer auctions a) .top) f

/-- The formula handed to the solver by `Auction.parse_input_stream`:
bids, then incompatibilities, then — unless the `--no-min-win-bids` flag is
set — the auctioneer clauses of `check_all_auctioneers_win`. -/
def auction_formula (auctioneers : List String) (bids : List Bid)
    (flag : Bool) : WCNFFormula :=
  let st := build_bids bids
  let f := manage_incompatibilities st.2 st.1
  if flag then f else check_all_auctioneers_win auctioneers bids f

/-- Python list indexing `xs[k]` with its negative-index wrap-around;
`none` models an `IndexError`. -/
def pyGet {α : Type} (xs : List α) (k : Int) : Option α :=
  if 0 ≤ k then xs.get? k.toNat
  else if (-k).toNat ≤ xs.length then xs.get? (xs.length - (-k).toNat)
  else none

/-- `Auction.print_solution` (auct_solver.py lines 72-74): the winning bids
are the positive entries of the returned model. -/
def winning_bids (model : List Int) : List Int :=
  model.filter (fun b => decide (0 < b))

/-- `Auction.print_solution` (auct_solver.py line 71):
`benefit = self.formula.sum_soft_weights() - opt`. -/
def benefit (f : WCNFFormula) (opt : Int) : Int :=
  f.sum_soft_weights - opt

/-- `Auction.print_solution` (auct_solver.py line 79): each winning variable
is mapped back to the bid record `self.auctions[bid - 1]`. -/
def winning_records (auctions : List Bid) (model : List Int) :
    Option (List Bid) :=
  (winning_bids model).mapM (fun v => pyGet auctions (v - 1))

/-- `Auction.print_solution` (auct_solver.py lines 85-88): report
`"Invalid solution"` when the benefit exceeds the sum of the soft weights,
`"Valid solution"` otherwise. -/
def validity_message (f : WCNFFormula) (opt : Int) : String :=
  if benefit f opt > f.sum_soft_weights then "Invalid solution"
  else "Valid solution"

/-- The truth assignment encoded by a solver model list whose `i`-th entry
is `±(i+1)`: variable `v` is true when the entry `model[v-1]` is positive
(spec section 4.2: "index == |literal|, sign indicating truth value"). -/
def modelAssign (model : List Int) (v : Nat) : Bool :=
  decide (0 < model.getD (v - 1) 0)

/-- The soft clauses produced by the bids, starting after `k` already
allocated variables: clause `[k+i+1]` with weight the price of the `i`-th
bid. -/
def softFrom (k : Nat) : List Bid → List (List Int × Int)
  | [] => []
  | b :: bs => ([((k + 1 : Nat) : Int)], b.price) :: softFrom (k + 1) bs

/-- The formula after step 3 of the build (bids plus incompatibility
clauses), i.e. `self.formula` at the end of `manage_incompatibilities`. -/
def incompat_formula (bids : List Bid) : WCNFFormula :=
  manage_incompatibilities (build_bids bids).2 (build_bids bids).1

/-- Following the spec's words (section 4.3, step 4): "collect the variable
ids of all bids belonging to that auctioneer" — the `k`-based positions, in
declaration order, of the bid rows whose agent is the auctioneer.  With
`k = 1` these are exactly the decision variables of those bids. -/
def bid_vars_from (k : Int) : List Bid → String → List Int
  | [], _ => []
  | b :: bs, a =>
    if b.agent = a then k :: bid_vars_from (k + 1) bs a
    else bid_vars_from (k + 1) bs a

/-- Sample bid: agent `A` bids 10 for good `g1`. -/
def sbid1 : Bid := ⟨"A", ["g1"], 10⟩

/-- Sample bid: agent `B` bids 5 for good `g1`. -/
def sbid2 : Bid := ⟨"B", ["g1"], 5⟩

/-- Sample bid with no goods, used for the duplicate-row counterexample. -/
def sbid3 : Bid := ⟨"A", [], 5⟩

/-- Sample bid of agent `B`, used for the bidless-auctioneer witness. -/
def sbid4 : Bid := ⟨"B", [], 1⟩

end Auct

namespace Gr

open Wcnf
open Auct (pyGet)

/-- The `Graph` class of graph.py: `n_nodes` as set by `read_stream`
(an `int`, initialised to 0) and `self.edges`, a sequence of tuples of
node labels (each tuple came from a `frozenset`, so a self-loop is a
one-element tuple). -/
structure Graph where
  n_nodes : Int
  edges : List (List Int)
deriving DecidableEq

/-- State accumulated by `Graph.read_stream` (graph.py lines 41-62):
`n_edges` is initialised to -1, the edge set starts empty. -/
structure ReadState where
  n_nodes : Int
  n_edges : Int
  edges : List (List Int)
deriving DecidableEq

/-- The tuple obtained from `frozenset([a, b])`: one element when `a = b`,
two otherwise.  (`[a, b]` is one representative of the frozenset's
unspecified iteration order.) -/
def edge_key (a b : Int) : List Int :=
  if a = b then [a] else [a, b]

/-- Digit-string accumulator for `py_int`. -/
def py_digits_aux (acc : Nat) : List Char → Option Nat
  | [] => some acc
  | c :: cs =>
    if c.isDigit then py_digits_aux (acc * 10 + (c.toNat - 48)) cs else none

/-- Python's `int()` applied to a token: an optional sign followed by a
nonempty digit string; `none` models the `ValueError` on anything else. -/
def py_int (s : String) : Option Int :=
  match s.data with
  | [] => none
  | '-' :: cs =>
    match cs with
    | [] => none
    | _ => (py_digits_aux 0 cs).map (fun n => -(n : Int))
  | '+' :: cs =>
    match cs with
    | [] => none
    | _ => (py_digits_aux 0 cs).map (fun n => (n : Int))
  | cs => (py_digits_aux 0 cs).map (fun n => (n : Int))

/-- One line of `Graph.read_stream`: a `p` line sets the node and edge
counts, a `c` line is ignored, any other line adds the frozenset of its two
node tokens to the edge set (membership is frozenset equality, i.e. equality
of the underlying sets).  `none` models the `IndexError`/`ValueError` a
malformed line raises. -/
def read_line (st : ReadState) (l : List String) : Option ReadState :=
  match l with
  | [] => none
  | t :: _ =>
    if t = "p" then do
      let s2 ← l.get? 2
      let s3 ← l.get? 3
      let n ← py_int s2
      let m ← py_int s3
      pure { st with n_nodes := n, n_edges := m }
    else if t = "c" then pure st
    else do
      let s1 ← l.get? 1
      let s2 ← l.get? 2
      let a ← py_int s1
      let b ← py_int s2
      let key := edge_key a b
      if st.edges.any (fun u => decide (u.toFinset = key.toFinset)) then
        pure st
      else
        pure { st with edges := st.edges ++ [key] }

/-- `Graph.read_stream` on a tokenized input (blank lines already removed by
the reader generator, each line split on whitespace).  The edge-count
mismatch only prints a warning, so it does not affect the result. -/
def read_stream (lines : List (List String)) : Option Graph := do
  let st ← lines.foldlM read_line ⟨0, -1, []⟩
  pure ⟨st.n_nodes, st.edges⟩

/-- `nodes = [formula.new_var() for _ in range(self.n_nodes)]`, common to the
three reducers: the fresh formula together with the node variables
`[1, ..., n]`. -/
def alloc_nodes (n : Nat) : WCNFFormula × List Nat :=
  (List.range n).foldl
    (fun st _ =>
      let (v, f) := st.1.new_var
      (f, st.2 ++ [v]))
    ({}, [])

/-- The value of the node-variable list: variables `1, ..., n`. -/
def node_vars (n : Nat) : List Nat :=
  (List.range n).map (fun i => i + 1)

/-- The body of the edge loop of `min_vertex_cover` (graph.py lines
109-110): unpack the edge tuple (a `ValueError` — `none` — unless it has
exactly two components), fetch `nodes[n1-1]` and `nodes[n2-1]`, and add the
hard clause (with `add_clause`'s default `TOP_WEIGHT`). -/
def mvc_step (nodes : List Nat) (f : WCNFFormula) (e : List Int) :
    Option WCNFFormula :=
  match e with
  | [a, b] => do
    let v1 ← pyGet nodes (a - 1)
    let v2 ← pyGet nodes (b - 1)
    pure (f.add_clause [(v1 : Int), (v2 : Int)] .top)
  | _ => none

/-- `Graph.min_vertex_cover` (graph.py lines 96-114): soft clause `[-n]` of
weight 1 per node, then the hard edge clauses. -/
def min_vertex_cover_formula (g : Graph) : Option WCNFFormula :=
  let st := alloc_nodes g.n_nodes.toNat
  let f1 := st.2.foldl (fun f v => f.add_clause [-(v : Int)] (.val 1)) st.1
  g.edges.foldlM (mvc_step st.2) f1

/-- The body of the edge loop of `max_clique` (graph.py lines 137-143):
fetch the two endpoint variables, swap them into ascending order, and mark
the matrix cell `[v1-1][v2-1]`; the matrix is modelled by the list of marked
cells. -/
def clique_mark_step (nodes : List Nat) (m : List (Nat × Nat))
    (e : List Int) : Option (List (Nat × Nat)) :=
  match e with
  | [a, b] => do
    let v1 ← pyGet nodes (a - 1)
    let v2 ← pyGet nodes (b - 1)
    let vs := if v1 > v2 then (v2, v1) else (v1, v2)
    pure (m ++ [(vs.1 - 1, vs.2 - 1)])
  | _ => none

/-- The body of the upper-triangle loop of `max_clique` (graph.py lines
149-152): a hard clause for every unmarked cell above the diagonal. -/
def clique_pair_step (marked : List (Nat × Nat)) (i1 : Nat) (f : WCNFFormula)
    (i2 : Nat) : WCNFFormula :=
  if i1 < i2 ∧ (i1, i2) ∉ marked then
    f.add_clause [-((i1 : Int) + 1), -((i2 : Int) + 1)] .top
  else f

/-- `Graph.max_clique` (graph.py lines 116-160): soft clause `[n]` of weight
1 per node; the adjacency matrix marks each edge's sorted endpoint pair;
then a hard clause `[-(index1+1), -(index2+1)]` for every upper-triangle
position not marked.  The matrix is modelled by the list of marked
coordinate pairs.  The Python code sizes the matrix with the stale loop
variable `n`, which after the soft-clause loop holds the last allocated node
variable, i.e. `n_nodes`; when the graph has no nodes that variable was
never bound and the call raises `NameError`, modelled by `none`. -/
def max_clique_formula (g : Graph) : Option WCNFFormula :=
  let st := alloc_nodes g.n_nodes.toNat
  let f1 := st.2.foldl (fun f v => f.add_clause [(v : Int)] (.val 1)) st.1
  match st.2.getLast? with
  | none => none
  | some n => do
    let marked ← g.edges.foldlM (clique_mark_step st.2)
      ([] : List (Nat × Nat))
    pure ((List.range n).foldl (fun f i1 =>
      (List.range n).foldl (clique_pair_step marked i1) f) f1)

/-- The body of the edge loop of `max_cut` (graph.py lines 175-178): two
soft clauses of weight 1 per edge. -/
def cut_step (nodes : List Nat) (f : WCNFFormula) (e : List Int) :
    Option WCNFFormula :=
  match e with
  | [a, b] => do
    let v1 ← pyGet nodes (a - 1)
    let v2 ← pyGet nodes (b - 1)
    pure ((f.add_clause [(v1 : Int), (v2 : Int)] (.val 1)).add_clause
      [-(v1 : Int), -(v2 : Int)] (.val 1))
  | _ => none

/-- `Graph.max_cut` (graph.py lines 163-187): per edge, the two soft clauses
`[v1, v2]` and `[-v1, -v2]`, each of weight 1; no hard clauses. -/
def max_cut_formula (g : Graph) : Option WCNFFormula :=
  let st := alloc_nodes g.n_nodes.toNat
  g.edges.foldlM (cut_step st.2) st.1

/-- The common decoding step `[n for n in model if n > 0]` of the three
graph routines. -/
def graph_decode (model : List Int) : List Int :=
  model.filter (fun n => decide (0 < n))

/-- The data-model invariants of a graph (spec section 3): node labels are
`1..n`, an edge is a pair of two distinct node labels. -/
def WellFormed (g : Graph) : Prop :=
  0 ≤ g.n_nodes ∧
  ∀ e ∈ g.edges, e.length = 2 ∧ e.Nodup ∧ ∀ l ∈ e, 1 ≤ l ∧ l ≤ g.n_nodes

instance (g : Graph) : Decidable (WellFormed g) := by
  unfold WellFormed; infer_instance

/-- Cost contributed by one edge's pair of soft clauses in the max-cut
formula under an assignment: 1 when both endpoints get the same truth
value, 0 when they differ. -/
def cut_edge_cost (σ : Nat → Bool) (e : List Int) : Int :=
  match e with
  | [a, b] => if σ a.natAbs = σ b.natAbs then 1 else 0
  | _ => 0

/-- The soft clauses produced by `max_cut`: per edge, the clause itself and
its negation, each with weight 1. -/
def cut_soft : List (List Int) → List (List Int × Int)
  | [] => []
  | e :: es => (e, 1) :: (e.map (fun l => -l), 1) :: cut_soft es

/-- The matrix coordinates marked by `max_clique` for one edge: the sorted
endpoint pair, each shifted down by one. -/
def edge_mark (e : List Int) : Nat × Nat :=
  match e with
  | [a, b] =>
    if a.toNat > b.toNat then (b.toNat - 1, a.toNat - 1)
    else (a.toNat - 1, b.toNat - 1)
  | _ => (0, 0)

/-- Sample graph: the path 1 - 2 - 3. -/
def sgPath : Graph := ⟨3, [[1, 2], [2, 3]]⟩

/-- Sample graph: a single edge. -/
def sgEdge : Graph := ⟨2, [[1, 2]]⟩

/-- Sample graph: two isolated nodes. -/
def sgTwo : Graph := ⟨2, []⟩

/-- Sample graph: the empty graph (`p edge 0 0`). -/
def sgEmpty : Graph := ⟨0, []⟩

/-- Sample assignment: exactly node 1 is true. -/
def sAssign1 : Nat → Bool := fun v => decide (v = 1)

/-- Sample tokenized graph input containing the self-loop line `e 1 1`. -/
def sLoopLines : List (List String) :=
  [["p", "edge", "2", "2"], ["e", "1", "1"], ["e", "1", "2"]]

end Gr

/-! ### Basic facts about the formula operations -/

namespace Wcnf

theorem add_clause_top_hard (f : WCNFFormula) (c : List Int) :
    (f.add_clause c .top).hard = f.hard ++ [c] := rfl

theorem add_clause_top_soft (f : WCNFFormula) (c : List Int) :
    (f.add_clause c .top).soft = f.soft := rfl

theorem add_clause_top_num_vars (f : WCNFFormula) (c : List Int) :
    (f.add_clause c .top).num_vars = f.num_vars := rfl

theorem add_clause_val_hard (f : WCNFFormula) (c : List Int) (w : Int) :
    (f.add_clause c (.val w)).hard = f.hard := rfl

theorem add_clause_val_soft (f : WCNFFormula) (c : List Int) (w : Int) :
    (f.add_clause c (.val w)).soft = f.soft ++ [(c, w)] := rfl

theorem add_clause_val_num_vars (f : WCNFFormula) (c : List Int) (w : Int) :
    (f.add_clause c (.val w)).num_vars = f.num_vars := rfl

theorem mem_hard_add_clause (f : WCNFFormula) (c c' : List Int) (w : Weight)
    (h : c ∈ f.hard) : c ∈ (f.add_clause c' w).hard := by
  cases w with
  | top => simp [add_clause_top_hard, h]
  | val w => simpa [add_clause_val_hard] using h

theorem costFalsified_cons (σ : Nat → Bool) (c : List Int × Int)
    (rest : List (List Int × Int)) :
    costFalsified σ (c :: rest) =
      (if clauseSat σ c.1 then 0 else c.2) + costFalsified σ rest := by
  rw [costFalsified, List.map_cons, List.sum_cons]
  rfl

end Wcnf

/-! ### Structure of the auction formula -/

namespace Auct

open Wcnf

theorem build_go_num_vars (bids : List Bid) :
    ∀ (f0 : WCNFFormula) (gs0 : List (String × Nat)),
      (bids.foldl manage_auction (f0, gs0)).1.num_vars =
        f0.num_vars + bids.length := by
  induction bids with
  | nil => intro f0 gs0; simp
  | cons b bs ih =>
    intro f0 gs0
    simp only [List.foldl_cons, List.length_cons]
    rw [manage_auction, WCNFFormula.new_var]
    simp only []
    rw [ih]
    simp [WCNFFormula.add_clause]
    omega

theorem build_go_hard (bids : List Bid) :
    ∀ (f0 : WCNFFormula) (gs0 : List (String × Nat)),
      (bids.foldl manage_auction (f0, gs0)).1.hard = f0.hard := by
  induction bids with
  | nil => intro f0 gs0; simp
  | cons b bs ih =>
    intro f0 gs0
    simp only [List.foldl_cons]
    rw [manage_auction, WCNFFormula.new_var]
    rw [ih]
    simp [WCNFFormula.add_clause]

theorem build_go_soft (bids : List Bid) :
    ∀ (f0 : WCNFFormula) (gs0 : List (String × Nat)),
      (bids.foldl manage_auction (f0, gs0)).1.soft =
        f0.soft ++ softFrom f0.num_vars bids := by
  induction bids with
  | nil => intro f0 gs0; simp [softFrom]
  | cons b bs ih =>
    intro f0 gs0
    simp only [List.foldl_cons]
    rw [manage_auction, WCNFFormula.new_var]
    rw [ih]
    simp [WCNFFormula.add_clause, softFrom]

/-- Membership in the goods set accumulated for one bid: either an old pair
or a pair carrying the bid's variable. -/
theorem goods_insert_mem (l : List String) (v : Nat) :
    ∀ (gs : List (String × Nat)) (p : String × Nat),
      p ∈ l.foldl (fun gs g => if (g, v) ∈ gs then gs else gs ++ [(g, v)]) gs →
      p ∈ gs ∨ p.2 = v := by
  induction l with
  | nil => intro gs p hp; exact .inl hp
  | cons g l ih =>
    intro gs p hp
    simp only [List.foldl_cons] at hp
    rcases ih _ p hp with h | h
    · by_cases hg : (g, v) ∈ gs
      · simp [hg] at h; exact .inl h
      · simp [hg] at h
        rcases h with h | h
        · exact .inl h
        · right; rw [h]
    · exact .inr h

/-- Every pair in the accumulated goods set carries a variable allocated by
some processed bid. -/
theorem build_go_goods_mem (bids : List Bid) :
    ∀ (f0 : WCNFFormula) (gs0 : List (String × Nat)) (p : String × Nat),
      p ∈ (bids.foldl manage_auction (f0, gs0)).2 →
      p ∈ gs0 ∨ (f0.num_vars < p.2 ∧ p.2 ≤ f0.num_vars + bids.length) := by
  induction bids with
  | nil => intro f0 gs0 p hp; exact .inl hp
  | cons b bs ih =>
    intro f0 gs0 p hp
    simp only [List.foldl_cons] at hp
    rw [manage_auction, WCNFFormula.new_var] at hp
    rcases ih _ _ p hp with h | h
    · rcases goods_insert_mem _ _ _ _ h with h' | h'
      · exact .inl h'
      · right; simp [h']
    · right
      simp only [WCNFFormula.add_clause] at h
      simp only [List.length_cons]
      omega

theorem build_bids_num_vars (bids : List Bid) :
    (build_bids bids).1.num_vars = bids.length := by
  rw [build_bids, build_go_num_vars]; simp

theorem build_bids_hard (bids : List Bid) :
    (build_bids bids).1.hard = [] := by
  rw [build_bids, build_go_hard]

theorem build_bids_soft (bids : List Bid) :
    (build_bids bids).1.soft = softFrom 0 bids := by
  rw [build_bids, build_go_soft]; rfl

theorem build_bids_goods_mem (bids : List Bid) (p : String × Nat)
    (hp : p ∈ (build_bids bids).2) : 1 ≤ p.2 ∧ p.2 ≤ bids.length := by
  rcases build_go_goods_mem bids _ _ p hp with h | h
  · simp at h
  · simpa using h

/-! ### The incompatibility clauses (claim C2 machinery) -/

theorem incomp_step_soft (p q : String × Nat) (f : WCNFFormula) :
    (incomp_step p f q).soft = f.soft := by
  rw [incomp_step]
  split <;> simp [add_clause_top_soft]

theorem incomp_step_num_vars (p q : String × Nat) (f : WCNFFormula) :
    (incomp_step p f q).num_vars = f.num_vars := by
  rw [incomp_step]
  split <;> simp [add_clause_top_num_vars]

theorem mem_incomp_step (p q : String × Nat) (f : WCNFFormula)
    (c : List Int) (h : c ∈ f.hard) : c ∈ (incomp_step p f q).hard := by
  rw [incomp_step]
  split
  · exact mem_hard_add_clause _ _ _ _ h
  · exact h

theorem mem_incomp_inner (p : String × Nat) (c : List Int) :
    ∀ (l : List (String × Nat)) (f : WCNFFormula), c ∈ f.hard →
      c ∈ (l.foldl (incomp_step p) f).hard := by
  intro l
  induction l with
  | nil => intro f h; exact h
  | cons q l ih =>
    intro f h
    exact ih _ (mem_incomp_step p q f c h)

theorem mem_incomp_outer (goods : List (String × Nat)) (c : List Int) :
    ∀ (l : List (String × Nat)) (f : WCNFFormula), c ∈ f.hard →
      c ∈ (l.foldl (fun f1 p => goods.foldl (incomp_step p) f1) f).hard := by
  intro l
  induction l with
  | nil => intro f h; exact h
  | cons p l ih =>
    intro f h
    exact ih _ (mem_incomp_inner p c goods f h)

/-- After the inner loop for `p` has run over a list containing `q`, the
clause for a qualifying pair `(p, q)` is present. -/
theorem incomp_inner_hits (p q : String × Nat)
    (hg : p.1 = q.1) (hlt : p.2 < q.2) :
    ∀ (l : List (String × Nat)) (f : WCNFFormula), q ∈ l →
      incomp_clause p q ∈ (l.foldl (incomp_step p) f).hard := by
  intro l
  induction l with
  | nil => intro f h; simp at h
  | cons q' l ih =>
    intro f hq
    rcases List.mem_cons.mp hq with rfl | hq
    · rw [List.foldl_cons]
      apply mem_incomp_inner
      rw [incomp_step]
      split
      · exact List.mem_append_right _ (List.mem_singleton.mpr rfl)
      · rename_i hcond
        by_contra hmem
        exact hcond ⟨hg, Nat.ne_of_lt hlt, hlt, hmem⟩
    · exact ih _ hq

/-- After the whole nested loop, the clause for every qualifying pair drawn
from the goods set is present. -/
theorem incomp_outer_hits (goods : List (String × Nat)) (p q : String × Nat)
    (hq : q ∈ goods) (hg : p.1 = q.1) (hlt : p.2 < q.2) :
    ∀ (l : List (String × Nat)) (f : WCNFFormula), p ∈ l →
      incomp_clause p q ∈
        (l.foldl (fun f1 p => goods.foldl (incomp_step p) f1) f).hard := by
  intro l
  induction l with
  | nil => intro f h; simp at h
  | cons p' l ih =>
    intro f hp
    rcases List.mem_cons.mp hp with rfl | hp
    · exact mem_incomp_outer goods _ l _ (incomp_inner_hits p q hg hlt goods f hq)
    · exact ih _ hp

theorem manage_incompatibilities_hits (goods : List (String × Nat))
    (f : WCNFFormula) (p q : String × Nat) (hp : p ∈ goods) (hq : q ∈ goods)
    (hg : p.1 = q.1) (hlt : p.2 < q.2) :
    incomp_clause p q ∈ (manage_incompatibilities goods f).hard :=
  incomp_outer_hits goods p q hq hg hlt goods f hp

theorem nodup_incomp_step (p q : String × Nat) (f : WCNFFormula)
    (h : f.hard.Nodup) : (incomp_step p f q).hard.Nodup := by
  rw [incomp_step]
  split
  · rename_i hcond
    rw [add_clause_top_hard]
    simp [List.nodup_append, h]
    exact hcond.2.2.2
  · exact h

theorem nodup_incomp_inner (p : String × Nat) :
    ∀ (l : List (String × Nat)) (f : WCNFFormula), f.hard.Nodup →
      (l.foldl (incomp_step p) f).hard.Nodup := by
  intro l
  induction l with
  | nil => intro f h; exact h
  | cons q l ih => intro f h; exact ih _ (nodup_incomp_step p q f h)

theorem nodup_incomp_outer (goods : List (String × Nat)) :
    ∀ (l : List (String × Nat)) (f : WCNFFormula), f.hard.Nodup →
      (l.foldl (fun f1 p => goods.foldl (incomp_step p) f1) f).hard.Nodup := by
  intro l
  induction l with
  | nil => intro f h; exact h
  | cons p l ih => intro f h; exact ih _ (nodup_incomp_inner p goods f h)

theorem manage_incompatibilities_nodup (goods : List (String × Nat))
    (f : WCNFFormula) (h : f.hard.Nodup) :
    (manage_incompatibilities goods f).hard.Nodup :=
  nodup_incomp_outer goods goods f h

theorem manage_incompatibilities_soft (goods : List (String × Nat)) :
    ∀ (l : List (String × Nat)) (f : WCNFFormula),
      (l.foldl (fun f1 p => goods.foldl (incomp_step p) f1) f).soft =
        f.soft := by
  intro l
  induction l with
  | nil => intro f; rfl
  | cons p l ih =>
    intro f
    rw [List.foldl_cons, ih]
    generalize goods = l2
    induction l2 generalizing f with
    | nil => rfl
    | cons q l2 ih2 => rw [List.foldl_cons, ih2, incomp_step_soft]

theorem manage_incompatibilities_num_vars (goods : List (String × Nat)) :
    ∀ (l : List (String × Nat)) (f : WCNFFormula),
      (l.foldl (fun f1 p => goods.foldl (incomp_step p) f1) f).num_vars =
        f.num_vars := by
  intro l
  induction l with
  | nil => intro f; rfl
  | cons p l ih =>
    intro f
    rw [List.foldl_cons, ih]
    generalize goods = l2
    induction l2 generalizing f with
    | nil => rfl
    | cons q l2 ih2 => rw [List.foldl_cons, ih2, incomp_step_num_vars]

/-- Inversion: a hard clause of the formula after the nested loop is an old
hard clause or a mutual-exclusion clause of a qualifying pair of goods
entries. -/
theorem mem_incomp_step_inv (p q : String × Nat) (f : WCNFFormula)
    (c : List Int) (h : c ∈ (incomp_step p f q).hard) :
    c ∈ f.hard ∨ (c = incomp_clause p q ∧ p.1 = q.1 ∧ p.2 < q.2) := by
  rw [incomp_step] at h
  split at h
  · rename_i hcond
    rw [add_clause_top_hard] at h
    rcases List.mem_append.mp h with h | h
    · exact .inl h
    · exact .inr ⟨List.mem_singleton.mp h, hcond.1, hcond.2.2.1⟩
  · exact .inl h

theorem mem_incomp_inner_inv (p : String × Nat) (c : List Int) :
    ∀ (l : List (String × Nat)) (f : WCNFFormula),
      c ∈ (l.foldl (incomp_step p) f).hard →
      c ∈ f.hard ∨ ∃ q ∈ l, c = incomp_clause p q ∧ p.1 = q.1 ∧ p.2 < q.2 := by
  intro l
  induction l with
  | nil => intro f h; exact .inl h
  | cons q l ih =>
    intro f h
    rcases ih _ h with h' | ⟨q', hq', hrest⟩
    · rcases mem_incomp_step_inv p q f c h' with h'' | h''
      · exact .inl h''
      · exact .inr ⟨q, List.mem_cons_self _ _, h''⟩
    · exact .inr ⟨q', List.mem_cons_of_mem _ hq', hrest⟩

theorem mem_incomp_outer_inv (goods : List (String × Nat)) (c : List Int) :
    ∀ (l : List (String × Nat)) (f : WCNFFormula),
      c ∈ (l.foldl (fun f1 p => goods.foldl (incomp_step p) f1) f).hard →
      c ∈ f.hard ∨ ∃ p ∈ l, ∃ q ∈ goods,
        c = incomp_clause p q ∧ p.1 = q.1 ∧ p.2 < q.2 := by
  intro l
  induction l with
  | nil => intro f h; exact .inl h
  | cons p l ih =>
    intro f h
    rcases ih _ h with h' | ⟨p', hp', hrest⟩
    · rcases mem_incomp_inner_inv p c goods _ h' with h'' | ⟨q, hq, hrest⟩
      · exact .inl h''
      · exact .inr ⟨p, List.mem_cons_self _ _, q, hq, hrest⟩
    · exact .inr ⟨p', List.mem_cons_of_mem _ hp', hrest⟩

theorem manage_incompatibilities_mem_inv (goods : List (String × Nat))
    (f : WCNFFormula) (c : List Int)
    (h : c ∈ (manage_incompatibilities goods f).hard) :
    c ∈ f.hard ∨ ∃ p ∈ goods, ∃ q ∈ goods,
      c = incomp_clause p q ∧ p.1 = q.1 ∧ p.2 < q.2 :=
  mem_incomp_outer_inv goods c goods f h

/-! ### Structure of the auctioneer clauses (claim C3 machinery) -/

theorem check_all_hard (auctions : List Bid) :
    ∀ (auctioneers : List String) (f : WCNFFormula),
      (check_all_auctioneers_win auctioneers auctions f).hard =
        f.hard ++
          auctioneers.map (fun a => auctions_of_auctioneer auctions a) := by
  intro auctioneers
  induction auctioneers with
  | nil => intro f; simp [check_all_auctioneers_win]
  | cons a as ih =>
    intro f
    rw [check_all_auctioneers_win, List.foldl_cons]
    rw [show (List.foldl _ _ as : WCNFFormula) =
      check_all_auctioneers_win as auctions
        (f.add_clause (auctions_of_auctioneer auctions a) .top) from rfl]
    rw [ih, add_clause_top_hard]
    simp

theorem check_all_soft (auctions : List Bid) :
    ∀ (auctioneers : List String) (f : WCNFFormula),
      (check_all_auctioneers_win auctioneers auctions f).soft = f.soft := by
  intro auctioneers
  induction auctioneers with
  | nil => intro f; rfl
  | cons a as ih =>
    intro f
    rw [check_all_auctioneers_win, List.foldl_cons]
    rw [show (List.foldl _ _ as : WCNFFormula) =
      check_all_auctioneers_win as auctions
        (f.add_clause (auctions_of_auctioneer auctions a) .top) from rfl]
    rw [ih, add_clause_top_soft]

theorem check_all_num_vars (auctions : List Bid) :
    ∀ (auctioneers : List String) (f : WCNFFormula),
      (check_all_auctioneers_win auctioneers auctions f).num_vars =
        f.num_vars := by
  intro auctioneers
  induction auctioneers with
  | nil => intro f; rfl
  | cons a as ih =>
    intro f
    rw [check_all_auctioneers_win, List.foldl_cons]
    rw [show (List.foldl _ _ as : WCNFFormula) =
      check_all_auctioneers_win as auctions
        (f.add_clause (auctions_of_auctioneer auctions a) .top) from rfl]
    rw [ih, add_clause_top_num_vars]

theorem auction_formula_true (auctioneers : List String) (bids : List Bid) :
    auction_formula auctioneers bids true = incompat_formula bids := rfl

theorem auction_formula_false_hard (auctioneers : List String)
    (bids : List Bid) :
    (auction_formula auctioneers bids false).hard =
      (incompat_formula bids).hard ++
        auctioneers.map (fun a => auctions_of_auctioneer bids a) := by
  rw [auction_formula]
  exact check_all_hard bids auctioneers _

theorem incompat_formula_soft (bids : List Bid) :
    (incompat_formula bids).soft = softFrom 0 bids := by
  rw [incompat_formula, manage_incompatibilities,
    manage_incompatibilities_soft, build_bids_soft]

theorem incompat_formula_num_vars (bids : List Bid) :
    (incompat_formula bids).num_vars = bids.length := by
  rw [incompat_formula, manage_incompatibilities,
    manage_incompatibilities_num_vars, build_bids_num_vars]

theorem auction_formula_soft (auctioneers : List String) (bids : List Bid)
    (flag : Bool) :
    (auction_formula auctioneers bids flag).soft = softFrom 0 bids := by
  cases flag
  · rw [auction_formula]
    simp only [Bool.false_eq_true, if_false]
    rw [check_all_soft]
    exact incompat_formula_soft bids
  · rw [auction_formula_true]
    exact incompat_formula_soft bids

theorem auction_formula_num_vars (auctioneers : List String) (bids : List Bid)
    (flag : Bool) :
    (auction_formula auctioneers bids flag).num_vars = bids.length := by
  cases flag
  · rw [auction_formula]
    simp only [Bool.false_eq_true, if_false]
    rw [check_all_num_vars]
    exact incompat_formula_num_vars bids
  · rw [auction_formula_true]
    exact incompat_formula_num_vars bids

theorem first_index_cons_mem (b x : Bid) (bs : List Bid) (hx : x ∈ bs)
    (hb : b ∉ bs) : first_index (b :: bs) x = first_index bs x + 1 := by
  rw [first_index]
  have : ¬ b = x := fun h => hb (h ▸ hx)
  simp [this]

theorem auctions_of_eq_aux (a : String) :
    ∀ (bids : List Bid) (k : Int), bids.Nodup →
      (bids.filter (fun b => decide (a = b.agent))).map
          (fun b => (first_index bids b : Int) + k) =
        bid_vars_from k bids a := by
  intro bids
  induction bids with
  | nil => intro k h; rfl
  | cons b bs ih =>
    intro k h
    rw [List.nodup_cons] at h
    have tail_map : ∀ (l : List Bid), (∀ x ∈ l, x ∈ bs) →
        l.map (fun x => (first_index (b :: bs) x : Int) + k) =
          l.map (fun x => (first_index bs x : Int) + (k + 1)) := by
      intro l hl
      apply List.map_congr_left
      intro x hx
      rw [first_index_cons_mem b x bs (hl x hx) h.1]
      push_cast
      ring
    by_cases hb : b.agent = a
    · rw [bid_vars_from, if_pos hb]
      rw [List.filter_cons_of_pos (by simp [hb])]
      rw [List.map_cons]
      rw [first_index]
      simp only [if_pos rfl]
      rw [tail_map _ (fun x hx => List.mem_of_mem_filter hx)]
      rw [ih (k + 1) h.2]
      norm_num
    · rw [bid_vars_from, if_neg hb]
      rw [List.filter_cons_of_neg (by simp; exact fun h' => hb h'.symm)]
      rw [tail_map _ (fun x hx => List.mem_of_mem_filter hx)]
      exact ih (k + 1) h.2

/-- With pairwise distinct bid rows, `list.index` recovers each bid's own
position, so the collected clause is exactly the spec's. -/
theorem auctions_of_eq_bid_vars (bids : List Bid) (a : String)
    (h : bids.Nodup) :
    auctions_of_auctioneer bids a = bid_vars_from 1 bids a := by
  rw [auctions_of_auctioneer]
  exact auctions_of_eq_aux a bids 1 h

/-- The literals collected by `bid_vars_from k` are exactly `k + i` for the
positions `i` of the bids of the auctioneer. -/
theorem bid_vars_from_mem (a : String) :
    ∀ (bids : List Bid) (k v : Int),
      v ∈ bid_vars_from k bids a ↔
        ∃ i : Nat, i < bids.length ∧ v = k + i ∧
          (bids.getD i default).agent = a := by
  intro bids
  induction bids with
  | nil => intro k v; simp [bid_vars_from]
  | cons b bs ih =>
    intro k v
    rw [bid_vars_from]
    constructor
    · intro hv
      by_cases hb : b.agent = a
      · rw [if_pos hb] at hv
        rcases List.mem_cons.mp hv with rfl | hv
        · exact ⟨0, by simp, by simp, by simpa using hb⟩
        · rcases (ih (k + 1) v).mp hv with ⟨i, hi, hvi, hagent⟩
          refine ⟨i + 1, by simpa using hi, by push_cast at hvi ⊢; omega, ?_⟩
          simpa using hagent
      · rw [if_neg hb] at hv
        rcases (ih (k + 1) v).mp hv with ⟨i, hi, hvi, hagent⟩
        refine ⟨i + 1, by simpa using hi, by push_cast at hvi ⊢; omega, ?_⟩
        simpa using hagent
    · rintro ⟨i, hi, hvi, hagent⟩
      cases i with
      | zero =>
        simp at hagent
        rw [if_pos hagent]
        simp at hvi
        simp [hvi]
      | succ i =>
        have hv' : v ∈ bid_vars_from (k + 1) bs a := by
          apply (ih (k + 1) v).mpr
          refine ⟨i, by simpa using hi, by push_cast at hvi ⊢; omega, ?_⟩
          simpa using hagent
        by_cases hb : b.agent = a
        · rw [if_pos hb]; exact List.mem_cons_of_mem _ hv'
        · rw [if_neg hb]; exact hv'

/-! ### Decoding the auction solution (claim C1 machinery) -/

theorem softFrom_eq_range (bids : List Bid) :
    ∀ k : Nat, softFrom k bids =
      (List.range bids.length).map
        (fun i => ([((k + i + 1 : Nat) : Int)], (bids.getD i default).price)) := by
  induction bids with
  | nil => intro k; rfl
  | cons b bs ih =>
    intro k
    rw [softFrom, List.length_cons, List.range_succ_eq_map, List.map_cons,
      List.map_map, ih (k + 1)]
    congr 1
    apply List.map_congr_left
    intro i _
    simp only [Function.comp_apply, List.getD_cons_succ]
    have harith : k + 1 + i + 1 = k + Nat.succ i + 1 := by omega
    rw [harith]

theorem filter_range_sum (p : Nat → Bool) (w : Nat → Int) :
    ∀ n : Nat,
      (((List.range n).filter p).map w).sum +
        ((List.range n).map (fun i => if p i then 0 else w i)).sum =
      ((List.range n).map w).sum := by
  intro n
  induction n with
  | zero => rfl
  | succ n ih =>
    rw [List.range_succ]
    by_cases h : p n <;>
      simp [List.filter_append, List.sum_append, h] <;> omega

theorem mapM_eq_some {α β : Type} (g : α → Option β) (f : α → β) :
    ∀ l : List α, (∀ a ∈ l, g a = some (f a)) → l.mapM g = some (l.map f) := by
  intro l
  induction l with
  | nil => intro _; rfl
  | cons a l ih =>
    intro h
    rw [List.mapM_cons, h a (List.mem_cons_self a l),
      ih (fun x hx => h x (List.mem_cons_of_mem a hx))]
    rfl

/-- A model list obeying the SolverPort shape (`i`-th entry `±(i+1)`) is
determined by the assignment it encodes. -/
theorem model_canonical (model : List Int) (n : Nat) (hlen : model.length = n)
    (hshape : ∀ (i : Nat) (hi : i < model.length),
      model.get ⟨i, hi⟩ = (i : Int) + 1 ∨ model.get ⟨i, hi⟩ = -((i : Int) + 1)) :
    model = (List.range n).map
      (fun i => if modelAssign model (i + 1) then (i : Int) + 1
        else -((i : Int) + 1)) := by
  apply List.ext_get
  · simp [hlen]
  · intro i h1 h2
    have hi : i < n := by omega
    have hassign : modelAssign model (i + 1) = decide (0 < model.get ⟨i, h1⟩) := by
      rw [modelAssign]
      congr 1
      simp only [Nat.add_sub_cancel]
      rw [List.getD_eq_get?, List.get?_eq_get h1]
      rfl
    rw [List.get_map]
    simp only [List.get_range, hassign]
    rcases hshape i h1 with h | h <;> rw [h]
    · rw [if_pos (by simp only [decide_eq_true_eq]; omega)]
    · rw [if_neg (by simp only [decide_eq_true_eq]; omega)]

theorem winning_bids_canonical (σ : Nat → Bool) (n : Nat) :
    winning_bids ((List.range n).map
        (fun i => if σ (i + 1) then (i : Int) + 1 else -((i : Int) + 1))) =
      ((List.range n).filter (fun i => σ (i + 1))).map
        (fun (i : Nat) => (i : Int) + 1) := by
  rw [winning_bids, List.filter_map]
  have hfilter : (List.range n).filter
      ((fun b => decide (0 < b)) ∘
        (fun i => if σ (i + 1) then (i : Int) + 1 else -((i : Int) + 1))) =
      (List.range n).filter (fun i => σ (i + 1)) := by
    apply List.filter_congr
    intro i _
    by_cases hσ : σ (i + 1)
    · have hc : (0 : Int) < (i : Int) + 1 := by omega
      simp [Function.comp, hσ, hc]
    · simp [Function.comp, hσ]
      omega
  rw [hfilter]
  apply List.map_congr_left
  intro i hi
  have hσ : σ (i + 1) = true := (List.mem_filter.mp hi).2
  simp [hσ]

theorem pyGet_nat {α : Type} (xs : List α) (i : Nat) :
    pyGet xs (i : Int) = xs.get? i := by
  rw [pyGet, if_pos (Int.ofNat_nonneg i)]
  simp

theorem winning_records_canonical (bids : List Bid) (σ : Nat → Bool) :
    winning_records bids ((List.range bids.length).map
        (fun i => if σ (i + 1) then (i : Int) + 1 else -((i : Int) + 1))) =
      some (((List.range bids.length).filter (fun i => σ (i + 1))).map
        (fun i => bids.getD i default)) := by
  rw [winning_records, winning_bids_canonical]
  have hmm := mapM_eq_some (fun v => pyGet bids (v - 1))
    (fun v => bids.getD (v.toNat - 1) default)
    (((List.range bids.length).filter (fun i => σ (i + 1))).map
      (fun (i : Nat) => (i : Int) + 1))
    (by
      intro v hv
      rcases List.mem_map.mp hv with ⟨i, hi, rfl⟩
      have hlt : i < bids.length := List.mem_range.mp (List.mem_filter.mp hi).1
      show pyGet bids (((i : Int) + 1) - 1) =
        some (bids.getD (((i : Int) + 1).toNat - 1) default)
      have h1 : ((i : Int) + 1) - 1 = ((i : Nat) : Int) := by ring
      have h2 : ((i : Int) + 1).toNat - 1 = i := by omega
      rw [h1, h2, pyGet_nat, List.get?_eq_get hlt, List.getD_eq_get?,
        List.get?_eq_get hlt, Option.getD_some])
  rw [hmm, List.map_map]
  congr 1

theorem cost_softFrom_range (σ : Nat → Bool) (bids : List Bid) :
    costFalsified σ (softFrom 0 bids) =
      ((List.range bids.length).map
        (fun i => if σ (i + 1) then 0 else (bids.getD i default).price)).sum := by
  rw [softFrom_eq_range bids 0, costFalsified, List.map_map]
  congr 1
  apply List.map_congr_left
  intro i _
  simp only [Function.comp_apply]
  have hsat : clauseSat σ [((0 + i + 1 : Nat) : Int)] = σ (i + 1) := by
    rw [clauseSat, List.any_cons, List.any_nil, Bool.or_false, litSat,
      if_pos (by omega)]
    congr 1
    simp [Int.natAbs_ofNat]
    omega
  rw [hsat]

theorem sum_softFrom_range (bids : List Bid) :
    ((softFrom 0 bids).map Prod.snd).sum =
      ((List.range bids.length).map
        (fun i => (bids.getD i default).price)).sum := by
  rw [softFrom_eq_range bids 0, List.map_map]
  rfl

end Auct

/-! ### Structure of the graph formulas -/

namespace Gr

open Wcnf
open Auct (pyGet pyGet_nat)

theorem alloc_nodes_eq (n : Nat) :
    alloc_nodes n =
      ({ num_vars := n, hard := [], soft := [] }, node_vars n) := by
  induction n with
  | zero => rfl
  | succ n ih =>
    rw [alloc_nodes, List.range_succ, List.foldl_append]
    rw [show (List.range n).foldl
      (fun (st : WCNFFormula × List Nat) _ =>
        let (v, f) := st.1.new_var
        (f, st.2 ++ [v])) ({}, []) = alloc_nodes n from rfl]
    rw [ih]
    simp [node_vars, List.range_succ, WCNFFormula.new_var]

theorem node_vars_get? (n i : Nat) (h : i < n) :
    (node_vars n).get? i = some (i + 1) := by
  rw [node_vars, List.get?_map, List.get?_range h]
  rfl

theorem node_vars_length (n : Nat) : (node_vars n).length = n := by
  rw [node_vars, List.length_map, List.length_range]

theorem node_vars_getLast? (n : Nat) (h : 0 < n) :
    (node_vars n).getLast? = some n := by
  rcases Nat.exists_eq_succ_of_ne_zero (Nat.pos_iff_ne_zero.mp h) with ⟨m, rfl⟩
  rw [node_vars, List.range_succ, List.map_append, List.getLast?_append]
  rfl

theorem pyGet_node_vars (n : Nat) (a : Int) (h1 : 1 ≤ a) (h2 : a ≤ (n : Int)) :
    pyGet (node_vars n) (a - 1) = some a.toNat := by
  have hm : a - 1 = ((a.toNat - 1 : Nat) : Int) := by omega
  rw [hm, pyGet_nat, node_vars_get? n _ (by omega)]
  congr 1
  omega

theorem foldl_add_neg (ns : List Nat) :
    ∀ f : WCNFFormula,
      ns.foldl (fun f v => f.add_clause [-(v : Int)] (.val 1)) f =
        { f with soft := f.soft ++ ns.map (fun (v : Nat) => ([-(v : Int)], 1)) } := by
  induction ns with
  | nil => intro f; simp
  | cons v ns ih =>
    intro f
    rw [List.foldl_cons, ih]
    simp [WCNFFormula.add_clause]

theorem foldl_add_pos (ns : List Nat) :
    ∀ f : WCNFFormula,
      ns.foldl (fun f v => f.add_clause [(v : Int)] (.val 1)) f =
        { f with soft := f.soft ++ ns.map (fun (v : Nat) => ([(v : Int)], 1)) } := by
  induction ns with
  | nil => intro f; simp
  | cons v ns ih =>
    intro f
    rw [List.foldl_cons, ih]
    simp [WCNFFormula.add_clause]

/-- The edge lists of a well-formed graph, in unpacked form. -/
theorem wf_edge_shape (g : Graph) (hwf : WellFormed g) (e : List Int)
    (he : e ∈ g.edges) :
    ∃ a b : Int, e = [a, b] ∧ 1 ≤ a ∧ a ≤ g.n_nodes ∧ 1 ≤ b ∧
      b ≤ g.n_nodes ∧ a ≠ b := by
  rcases hwf.2 e he with ⟨hlen, hnd, hbound⟩
  match e, hlen with
  | [a, b], _ =>
    refine ⟨a, b, rfl, (hbound a (by simp)).1, (hbound a (by simp)).2,
      (hbound b (by simp)).1, (hbound b (by simp)).2, ?_⟩
    intro hab
    apply (List.nodup_cons.mp hnd).1
    simp [hab]

/-- One-edge shape bound used by the graph fold lemmas. -/
theorem mvc_go (n : Nat) :
    ∀ edges : List (List Int),
      (∀ e ∈ edges, ∃ a b : Int, e = [a, b] ∧ 1 ≤ a ∧ a ≤ (n : Int) ∧
        1 ≤ b ∧ b ≤ (n : Int)) →
      ∀ f : WCNFFormula,
        List.foldlM (mvc_step (node_vars n)) f edges =
          some { f with hard := f.hard ++ edges } := by
  intro edges
  induction edges with
  | nil => intro _ f; simp
  | cons e es ih =>
    intro hsh f
    rcases hsh e (List.mem_cons_self e es) with ⟨a, b, rfl, ha1, ha2, hb1, hb2⟩
    have hca : ((a.toNat : Nat) : Int) = a := Int.toNat_of_nonneg (by omega)
    have hcb : ((b.toNat : Nat) : Int) = b := Int.toNat_of_nonneg (by omega)
    have hstep : mvc_step (node_vars n) f [a, b] =
        some (f.add_clause [a, b] .top) := by
      simp [mvc_step, pyGet_node_vars n a ha1 ha2,
        pyGet_node_vars n b hb1 hb2, hca, hcb]
    rw [List.foldlM_cons, hstep]
    rw [show ((some (f.add_clause [a, b] .top) >>= fun f' =>
      List.foldlM (mvc_step (node_vars n)) f' es) =
        List.foldlM (mvc_step (node_vars n)) (f.add_clause [a, b] .top) es)
      from rfl]
    rw [ih (fun x hx => hsh x (List.mem_cons_of_mem _ hx)) _]
    simp [WCNFFormula.add_clause]

theorem mvc_formula_eq (g : Graph) (hwf : WellFormed g) :
    min_vertex_cover_formula g = some
      { num_vars := g.n_nodes.toNat,
        hard := g.edges,
        soft := (node_vars g.n_nodes.toNat).map
          (fun (v : Nat) => ([-(v : Int)], 1)) } := by
  have hsh : ∀ e ∈ g.edges, ∃ a b : Int, e = [a, b] ∧ 1 ≤ a ∧
      a ≤ (g.n_nodes.toNat : Int) ∧ 1 ≤ b ∧ b ≤ (g.n_nodes.toNat : Int) := by
    intro e he
    rcases wf_edge_shape g hwf e he with ⟨a, b, rfl, h1, h2, h3, h4, _⟩
    exact ⟨a, b, rfl, h1, by omega, h3, by omega⟩
  simp only [min_vertex_cover_formula, alloc_nodes_eq]
  rw [foldl_add_neg]
  rw [mvc_go g.n_nodes.toNat g.edges hsh]
  simp

theorem cut_go (n : Nat) :
    ∀ edges : List (List Int),
      (∀ e ∈ edges, ∃ a b : Int, e = [a, b] ∧ 1 ≤ a ∧ a ≤ (n : Int) ∧
        1 ≤ b ∧ b ≤ (n : Int)) →
      ∀ f : WCNFFormula,
        List.foldlM (cut_step (node_vars n)) f edges =
          some { f with soft := f.soft ++ cut_soft edges } := by
  intro edges
  induction edges with
  | nil => intro _ f; simp [cut_soft]
  | cons e es ih =>
    intro hsh f
    rcases hsh e (List.mem_cons_self e es) with ⟨a, b, rfl, ha1, ha2, hb1, hb2⟩
    have hca : ((a.toNat : Nat) : Int) = a := Int.toNat_of_nonneg (by omega)
    have hcb : ((b.toNat : Nat) : Int) = b := Int.toNat_of_nonneg (by omega)
    have hstep : cut_step (node_vars n) f [a, b] =
        some ((f.add_clause [a, b] (.val 1)).add_clause [-a, -b] (.val 1)) := by
      simp [cut_step, pyGet_node_vars n a ha1 ha2,
        pyGet_node_vars n b hb1 hb2, hca, hcb]
    rw [List.foldlM_cons, hstep]
    rw [show ((some ((f.add_clause [a, b] (.val 1)).add_clause [-a, -b]
        (.val 1)) >>= fun f' => List.foldlM (cut_step (node_vars n)) f' es) =
      List.foldlM (cut_step (node_vars n))
        ((f.add_clause [a, b] (.val 1)).add_clause [-a, -b] (.val 1)) es)
      from rfl]
    rw [ih (fun x hx => hsh x (List.mem_cons_of_mem _ hx)) _]
    simp [WCNFFormula.add_clause, cut_soft]

theorem cut_formula_eq (g : Graph) (hwf : WellFormed g) :
    max_cut_formula g = some
      { num_vars := g.n_nodes.toNat,
        hard := [],
        soft := cut_soft g.edges } := by
  have hsh : ∀ e ∈ g.edges, ∃ a b : Int, e = [a, b] ∧ 1 ≤ a ∧
      a ≤ (g.n_nodes.toNat : Int) ∧ 1 ≤ b ∧ b ≤ (g.n_nodes.toNat : Int) := by
    intro e he
    rcases wf_edge_shape g hwf e he with ⟨a, b, rfl, h1, h2, h3, h4, _⟩
    exact ⟨a, b, rfl, h1, by omega, h3, by omega⟩
  simp only [max_cut_formula, alloc_nodes_eq]
  rw [cut_go g.n_nodes.toNat g.edges hsh]
  simp

theorem cut_cost (σ : Nat → Bool) :
    ∀ edges : List (List Int),
      (∀ e ∈ edges, ∃ a b : Int, e = [a, b] ∧ 1 ≤ a ∧ 1 ≤ b) →
      costFalsified σ (cut_soft edges) =
        (edges.map (cut_edge_cost σ)).sum := by
  intro edges
  induction edges with
  | nil => intro _; rfl
  | cons e es ih =>
    intro hsh
    rcases hsh e (List.mem_cons_self e es) with ⟨a, b, rfl, ha, hb⟩
    rw [cut_soft, costFalsified_cons, costFalsified_cons,
      ih (fun x hx => hsh x (List.mem_cons_of_mem _ hx))]
    have h1 : clauseSat σ [a, b] = (σ a.natAbs || σ b.natAbs) := by
      simp [clauseSat, litSat, show (0 : Int) < a by omega,
        show (0 : Int) < b by omega]
    have h2 : clauseSat σ [-a, -b] = (! σ a.natAbs || ! σ b.natAbs) := by
      simp [clauseSat, litSat, show ¬ (0 : Int) < -a by omega,
        show ¬ (0 : Int) < -b by omega]
    cases hA : σ a.natAbs <;> cases hB : σ b.natAbs <;>
      simp [cut_edge_cost, h1, h2, hA, hB]

theorem clique_mark_go (n : Nat) :
    ∀ edges : List (List Int),
      (∀ e ∈ edges, ∃ a b : Int, e = [a, b] ∧ 1 ≤ a ∧ a ≤ (n : Int) ∧
        1 ≤ b ∧ b ≤ (n : Int)) →
      ∀ m : List (Nat × Nat),
        List.foldlM (clique_mark_step (node_vars n)) m edges =
          some (m ++ edges.map edge_mark) := by
  intro edges
  induction edges with
  | nil => intro _ m; simp
  | cons e es ih =>
    intro hsh m
    rcases hsh e (List.mem_cons_self e es) with ⟨a, b, rfl, ha1, ha2, hb1, hb2⟩
    have hstep : clique_mark_step (node_vars n) m [a, b] =
        some (m ++ [edge_mark [a, b]]) := by
      simp only [clique_mark_step, pyGet_node_vars n a ha1 ha2,
        pyGet_node_vars n b hb1 hb2, Option.some_bind, edge_mark]
      by_cases h : a.toNat > b.toNat <;> simp [h]
    rw [List.foldlM_cons, hstep]
    rw [show ((some (m ++ [edge_mark [a, b]]) >>= fun m' =>
      List.foldlM (clique_mark_step (node_vars n)) m' es) =
        List.foldlM (clique_mark_step (node_vars n))
          (m ++ [edge_mark [a, b]]) es) from rfl]
    rw [ih (fun x hx => hsh x (List.mem_cons_of_mem _ hx)) _]
    simp

theorem cl_mem_step (marked : List (Nat × Nat)) (i1 i2 : Nat)
    (f : WCNFFormula) (c : List Int) (h : c ∈ f.hard) :
    c ∈ (clique_pair_step marked i1 f i2).hard := by
  rw [clique_pair_step]
  split
  · exact mem_hard_add_clause _ _ _ _ h
  · exact h

theorem cl_mem_inner (marked : List (Nat × Nat)) (i1 : Nat) (c : List Int) :
    ∀ (l : List Nat) (f : WCNFFormula), c ∈ f.hard →
      c ∈ (l.foldl (clique_pair_step marked i1) f).hard := by
  intro l
  induction l with
  | nil => intro f h; exact h
  | cons i2 l ih => intro f h; exact ih _ (cl_mem_step marked i1 i2 f c h)

theorem cl_mem_outer (marked : List (Nat × Nat)) (l2 : List Nat)
    (c : List Int) :
    ∀ (l : List Nat) (f : WCNFFormula), c ∈ f.hard →
      c ∈ (l.foldl (fun f i1 => l2.foldl (clique_pair_step marked i1) f)
        f).hard := by
  intro l
  induction l with
  | nil => intro f h; exact h
  | cons i1 l ih => intro f h; exact ih _ (cl_mem_inner marked i1 c l2 f h)

theorem cl_inner_hits (marked : List (Nat × Nat)) (i1 i2 : Nat)
    (hlt : i1 < i2) (hmark : (i1, i2) ∉ marked) :
    ∀ (l : List Nat) (f : WCNFFormula), i2 ∈ l →
      [-((i1 : Int) + 1), -((i2 : Int) + 1)] ∈
        (l.foldl (clique_pair_step marked i1) f).hard := by
  intro l
  induction l with
  | nil => intro f h; simp at h
  | cons i2' l ih =>
    intro f hi2
    rcases List.mem_cons.mp hi2 with rfl | hi2
    · rw [List.foldl_cons]
      apply cl_mem_inner
      rw [clique_pair_step, if_pos ⟨hlt, hmark⟩]
      exact List.mem_append_right _ (List.mem_singleton.mpr rfl)
    · exact ih _ hi2

theorem cl_outer_hits (marked : List (Nat × Nat)) (l2 : List Nat)
    (i1 i2 : Nat) (hi2 : i2 ∈ l2) (hlt : i1 < i2)
    (hmark : (i1, i2) ∉ marked) :
    ∀ (l : List Nat) (f : WCNFFormula), i1 ∈ l →
      [-((i1 : Int) + 1), -((i2 : Int) + 1)] ∈
        (l.foldl (fun f i1 => l2.foldl (clique_pair_step marked i1) f)
          f).hard := by
  intro l
  induction l with
  | nil => intro f h; simp at h
  | cons i1' l ih =>
    intro f hi1
    rcases List.mem_cons.mp hi1 with rfl | hi1
    · rw [List.foldl_cons]
      exact cl_mem_outer marked l2 _ l _
        (cl_inner_hits marked i1 i2 hlt hmark l2 f hi2)
    · exact ih _ hi1

theorem cl_step_inv (marked : List (Nat × Nat)) (i1 i2 : Nat)
    (f : WCNFFormula) (c : List Int)
    (h : c ∈ (clique_pair_step marked i1 f i2).hard) :
    c ∈ f.hard ∨ (c = [-((i1 : Int) + 1), -((i2 : Int) + 1)] ∧
      i1 < i2 ∧ (i1, i2) ∉ marked) := by
  rw [clique_pair_step] at h
  split at h
  · rename_i hcond
    rw [add_clause_top_hard] at h
    rcases List.mem_append.mp h with h | h
    · exact .inl h
    · exact .inr ⟨List.mem_singleton.mp h, hcond⟩
  · exact .inl h

theorem cl_inner_inv (marked : List (Nat × Nat)) (i1 : Nat) (c : List Int) :
    ∀ (l : List Nat) (f : WCNFFormula),
      c ∈ (l.foldl (clique_pair_step marked i1) f).hard →
      c ∈ f.hard ∨ ∃ i2 ∈ l, c = [-((i1 : Int) + 1), -((i2 : Int) + 1)] ∧
        i1 < i2 ∧ (i1, i2) ∉ marked := by
  intro l
  induction l with
  | nil => intro f h; exact .inl h
  | cons i2 l ih =>
    intro f h
    rcases ih _ h with h' | ⟨i2', hi2', hrest⟩
    · rcases cl_step_inv marked i1 i2 f c h' with h'' | h''
      · exact .inl h''
      · exact .inr ⟨i2, List.mem_cons_self _ _, h''⟩
    · exact .inr ⟨i2', List.mem_cons_of_mem _ hi2', hrest⟩

theorem cl_outer_inv (marked : List (Nat × Nat)) (l2 : List Nat)
    (c : List Int) :
    ∀ (l : List Nat) (f : WCNFFormula),
      c ∈ (l.foldl (fun f i1 => l2.foldl (clique_pair_step marked i1) f)
        f).hard →
      c ∈ f.hard ∨ ∃ i1 ∈ l, ∃ i2 ∈ l2,
        c = [-((i1 : Int) + 1), -((i2 : Int) + 1)] ∧ i1 < i2 ∧
          (i1, i2) ∉ marked := by
  intro l
  induction l with
  | nil => intro f h; exact .inl h
  | cons i1 l ih =>
    intro f h
    rcases ih _ h with h' | ⟨i1', hi1', hrest⟩
    · rcases cl_inner_inv marked i1 c l2 _ h' with h'' | ⟨i2, hi2, hrest⟩
      · exact .inl h''
      · exact .inr ⟨i1, List.mem_cons_self _ _, i2, hi2, hrest⟩
    · exact .inr ⟨i1', List.mem_cons_of_mem _ hi1', hrest⟩

theorem cl_step_soft (marked : List (Nat × Nat)) (i1 i2 : Nat)
    (f : WCNFFormula) :
    (clique_pair_step marked i1 f i2).soft = f.soft := by
  rw [clique_pair_step]
  split <;> simp [add_clause_top_soft]

theorem cl_step_num_vars (marked : List (Nat × Nat)) (i1 i2 : Nat)
    (f : WCNFFormula) :
    (clique_pair_step marked i1 f i2).num_vars = f.num_vars := by
  rw [clique_pair_step]
  split <;> simp [add_clause_top_num_vars]

theorem cl_fold_soft (marked : List (Nat × Nat)) (l2 : List Nat) :
    ∀ (l : List Nat) (f : WCNFFormula),
      (l.foldl (fun f i1 => l2.foldl (clique_pair_step marked i1) f)
        f).soft = f.soft := by
  intro l
  induction l with
  | nil => intro f; rfl
  | cons i1 l ih =>
    intro f
    rw [List.foldl_cons, ih]
    generalize l2 = l2'
    induction l2' generalizing f with
    | nil => rfl
    | cons i2 l2' ih2 => rw [List.foldl_cons, ih2, cl_step_soft]

theorem cl_fold_num_vars (marked : List (Nat × Nat)) (l2 : List Nat) :
    ∀ (l : List Nat) (f : WCNFFormula),
      (l.foldl (fun f i1 => l2.foldl (clique_pair_step marked i1) f)
        f).num_vars = f.num_vars := by
  intro l
  induction l with
  | nil => intro f; rfl
  | cons i1 l ih =>
    intro f
    rw [List.foldl_cons, ih]
    generalize l2 = l2'
    induction l2' generalizing f with
    | nil => rfl
    | cons i2 l2' ih2 => rw [List.foldl_cons, ih2, cl_step_num_vars]

/-- `max_clique_formula` on a well-formed nonempty graph: the base formula
(variables and soft clauses) extended by the upper-triangle double loop over
the marked-cell list. -/
theorem clique_formula_eq (g : Graph) (hwf : WellFormed g)
    (hn : 0 < g.n_nodes) :
    max_clique_formula g = some
      ((List.range g.n_nodes.toNat).foldl
        (fun f i1 => (List.range g.n_nodes.toNat).foldl
          (clique_pair_step (g.edges.map edge_mark) i1) f)
        { num_vars := g.n_nodes.toNat, hard := [],
          soft := (node_vars g.n_nodes.toNat).map
            (fun (v : Nat) => ([(v : Int)], 1)) }) := by
  have hsh : ∀ e ∈ g.edges, ∃ a b : Int, e = [a, b] ∧ 1 ≤ a ∧
      a ≤ (g.n_nodes.toNat : Int) ∧ 1 ≤ b ∧ b ≤ (g.n_nodes.toNat : Int) := by
    intro e he
    rcases wf_edge_shape g hwf e he with ⟨a, b, rfl, h1, h2, h3, h4, _⟩
    exact ⟨a, b, rfl, h1, by omega, h3, by omega⟩
  simp only [max_clique_formula, alloc_nodes_eq]
  rw [foldl_add_pos, node_vars_getLast? _ (by omega),
    clique_mark_go g.n_nodes.toNat g.edges hsh]
  simp

/-- A marked cell corresponds exactly to an edge between the two nodes (in
either stored orientation). -/
theorem mark_mem_iff (g : Graph) (hwf : WellFormed g) (a b : Int)
    (h1 : 1 ≤ a) (hab : a < b) (hb : b ≤ g.n_nodes) :
    ((a.toNat - 1, b.toNat - 1) ∈ g.edges.map edge_mark) ↔
      ([a, b] ∈ g.edges ∨ [b, a] ∈ g.edges) := by
  constructor
  · intro hmem
    rcases List.mem_map.mp hmem with ⟨e, he, hmark⟩
    rcases wf_edge_shape g hwf e he with ⟨x, y, rfl, hx1, hx2, hy1, hy2, hxy⟩
    rw [edge_mark] at hmark
    by_cases hgt : x.toNat > y.toNat
    · rw [if_pos hgt, Prod.mk.injEq] at hmark
      have hya : y = a := by omega
      have hxb : x = b := by omega
      right
      rw [← hya, ← hxb]
      exact he
    · rw [if_neg hgt, Prod.mk.injEq] at hmark
      have hxa : x = a := by omega
      have hyb : y = b := by omega
      left
      rw [← hxa, ← hyb]
      exact he
  · intro h
    rcases h with he | he
    · refine List.mem_map.mpr ⟨[a, b], he, ?_⟩
      rw [edge_mark, if_neg (by omega)]
    · refine List.mem_map.mpr ⟨[b, a], he, ?_⟩
      rw [edge_mark, if_pos (by omega)]

/-- A fold with a failing step over a list containing the failing element
returns `none`. -/
theorem foldlM_bad {β : Type} (step : β → List Int → Option β) (e : List Int)
    (hbad : ∀ f, step f e = none) :
    ∀ edges : List (List Int), e ∈ edges → ∀ f : β,
      List.foldlM step f edges = none := by
  intro edges
  induction edges with
  | nil => intro h; simp at h
  | cons e0 es ih =>
    intro he f
    rcases List.mem_cons.mp he with rfl | he'
    · rw [List.foldlM_cons, hbad f]
      rfl
    · rw [List.foldlM_cons]
      cases hst : step f e0 with
      | none => rfl
      | some f' => exact ih he' f'

theorem mvc_step_bad (nodes : List Nat) (e : List Int)
    (hbad : ∀ a b : Int, e ≠ [a, b]) (f : WCNFFormula) :
    mvc_step nodes f e = none := by
  match e, hbad with
  | [], _ => rfl
  | [a], _ => rfl
  | [a, b], hbad => exact absurd rfl (hbad a b)
  | a :: b :: c :: t, _ => rfl

theorem cut_step_bad (nodes : List Nat) (e : List Int)
    (hbad : ∀ a b : Int, e ≠ [a, b]) (f : WCNFFormula) :
    cut_step nodes f e = none := by
  match e, hbad with
  | [], _ => rfl
  | [a], _ => rfl
  | [a, b], hbad => exact absurd rfl (hbad a b)
  | a :: b :: c :: t, _ => rfl

theorem clique_mark_step_bad (nodes : List Nat) (e : List Int)
    (hbad : ∀ a b : Int, e ≠ [a, b]) (m : List (Nat × Nat)) :
    clique_mark_step nodes m e = none := by
  match e, hbad with
  | [], _ => rfl
  | [a], _ => rfl
  | [a, b], hbad => exact absurd rfl (hbad a b)
  | a :: b :: c :: t, _ => rfl

theorem mvc_formula_fail (g : Graph) (e : List Int) (he : e ∈ g.edges)
    (hbad : ∀ a b : Int, e ≠ [a, b]) :
    min_vertex_cover_formula g = none := by
  simp only [min_vertex_cover_formula]
  exact foldlM_bad _ e (mvc_step_bad _ e hbad) g.edges he _

theorem cut_formula_fail (g : Graph) (e : List Int) (he : e ∈ g.edges)
    (hbad : ∀ a b : Int, e ≠ [a, b]) :
    max_cut_formula g = none := by
  simp only [max_cut_formula]
  exact foldlM_bad _ e (cut_step_bad _ e hbad) g.edges he _

theorem clique_formula_fail (g : Graph) (e : List Int) (he : e ∈ g.edges)
    (hbad : ∀ a b : Int, e ≠ [a, b]) :
    max_clique_formula g = none := by
  rcases Nat.eq_zero_or_pos g.n_nodes.toNat with h0 | hpos
  · simp only [max_clique_formula, alloc_nodes_eq, h0]
    rfl
  · simp only [max_clique_formula, alloc_nodes_eq]
    rw [node_vars_getLast? _ hpos,
      foldlM_bad _ e (clique_mark_step_bad _ e hbad) g.edges he _]
    rfl

/-- Every tuple stored by the edge-set accumulator is the tuple of some
frozenset `frozenset([x, y])`. -/
theorem read_line_inv (st : ReadState) (l : List String) (st' : ReadState)
    (hinv : ∀ u ∈ st.edges, ∃ x y : Int, u = edge_key x y)
    (h : read_line st l = some st') :
    ∀ u ∈ st'.edges, ∃ x y : Int, u = edge_key x y := by
  match l with
  | [] => simp [read_line] at h
  | t :: rest =>
    rw [read_line] at h
    by_cases hp : t = "p"
    · rw [if_pos hp] at h
      rcases Option.bind_eq_some.mp h with ⟨s2, _, h⟩
      rcases Option.bind_eq_some.mp h with ⟨s3, _, h⟩
      rcases Option.bind_eq_some.mp h with ⟨n, _, h⟩
      rcases Option.bind_eq_some.mp h with ⟨m, _, h⟩
      cases Option.some.injEq .. ▸ h
      simpa using hinv
    · rw [if_neg hp] at h
      by_cases hc : t = "c"
      · rw [if_pos hc] at h
        cases Option.some.injEq .. ▸ h
        simpa using hinv
      · rw [if_neg hc] at h
        rcases Option.bind_eq_some.mp h with ⟨s1, _, h⟩
        rcases Option.bind_eq_some.mp h with ⟨s2, _, h⟩
        rcases Option.bind_eq_some.mp h with ⟨a, _, h⟩
        rcases Option.bind_eq_some.mp h with ⟨b, _, h⟩
        dsimp only [] at h
        split at h
        · cases Option.some.injEq .. ▸ h
          simpa using hinv
        · cases Option.some.injEq .. ▸ h
          intro u hu
          simp only [] at hu
          rcases List.mem_append.mp hu with hu | hu
          · exact hinv u hu
          · exact ⟨a, b, List.mem_singleton.mp hu⟩

/-- A stored edge tuple survives the processing of any further line. -/
theorem read_line_mem (st : ReadState) (l : List String) (st' : ReadState)
    (h : read_line st l = some st') (u : List Int) (hu : u ∈ st.edges) :
    u ∈ st'.edges := by
  match l with
  | [] => simp [read_line] at h
  | t :: rest =>
    rw [read_line] at h
    by_cases hp : t = "p"
    · rw [if_pos hp] at h
      rcases Option.bind_eq_some.mp h with ⟨s2, _, h⟩
      rcases Option.bind_eq_some.mp h with ⟨s3, _, h⟩
      rcases Option.bind_eq_some.mp h with ⟨n, _, h⟩
      rcases Option.bind_eq_some.mp h with ⟨m, _, h⟩
      cases Option.some.injEq .. ▸ h
      simpa using hu
    · rw [if_neg hp] at h
      by_cases hc : t = "c"
      · rw [if_pos hc] at h
        cases Option.some.injEq .. ▸ h
        simpa using hu
      · rw [if_neg hc] at h
        rcases Option.bind_eq_some.mp h with ⟨s1, _, h⟩
        rcases Option.bind_eq_some.mp h with ⟨s2, _, h⟩
        rcases Option.bind_eq_some.mp h with ⟨a, _, h⟩
        rcases Option.bind_eq_some.mp h with ⟨b, _, h⟩
        dsimp only [] at h
        split at h
        · cases Option.some.injEq .. ▸ h
          simpa using hu
        · cases Option.some.injEq .. ▸ h
          simp only []
          exact List.mem_append_left _ hu

/-- Processing a self-loop line `t x x` stores (or finds already stored) the
one-element tuple `[a]`. -/
theorem read_line_selfloop (st : ReadState) (t s1 s2 : String)
    (rest : List String) (a : Int) (st' : ReadState)
    (ht1 : t ≠ "p") (ht2 : t ≠ "c")
    (h1 : py_int s1 = some a) (h2 : py_int s2 = some a)
    (hinv : ∀ u ∈ st.edges, ∃ x y : Int, u = edge_key x y)
    (h : read_line st (t :: s1 :: s2 :: rest) = some st') :
    [a] ∈ st'.edges := by
  rw [read_line, if_neg ht1, if_neg ht2] at h
  rcases Option.bind_eq_some.mp h with ⟨s1', hs1', h⟩
  rcases Option.bind_eq_some.mp h with ⟨s2', hs2', h⟩
  simp only [List.get?] at hs1' hs2'
  cases Option.some.inj hs1'
  cases Option.some.inj hs2'
  rcases Option.bind_eq_some.mp h with ⟨a', ha', h⟩
  rcases Option.bind_eq_some.mp h with ⟨b', hb', h⟩
  rw [h1] at ha'
  rw [h2] at hb'
  cases Option.some.inj ha'
  cases Option.some.inj hb'
  have hkey : edge_key a a = [a] := by rw [edge_key, if_pos rfl]
  dsimp only [] at h
  rw [hkey] at h
  split at h
  · rename_i hany
    cases Option.some.injEq .. ▸ h
    rcases List.any_eq_true.mp hany with ⟨u, hu, hset⟩
    rcases hinv u hu with ⟨x, y, rfl⟩
    have hset' : (edge_key x y).toFinset = ([a] : List Int).toFinset :=
      of_decide_eq_true hset
    have hxy : edge_key x y = [a] := by
      rw [edge_key] at hset' ⊢
      by_cases hxy : x = y
      · rw [if_pos hxy] at hset' ⊢
        simp at hset'
        simp [hset']
      · rw [if_neg hxy] at hset'
        exfalso
        have hx : x ∈ ([x, y] : List Int).toFinset := by simp
        have hy : y ∈ ([x, y] : List Int).toFinset := by simp
        rw [hset'] at hx hy
        simp at hx hy
        exact hxy (hx.trans hy.symm)
    rw [← hxy]
    exact hu
  · cases Option.some.injEq .. ▸ h
    simp only []
    exact List.mem_append_right _ (List.mem_singleton.mpr rfl)

theorem read_go_selfloop (t s1 s2 : String) (rest : List String) (a : Int)
    (ht1 : t ≠ "p") (ht2 : t ≠ "c")
    (h1 : py_int s1 = some a) (h2 : py_int s2 = some a) :
    ∀ (lines : List (List String)) (st : ReadState),
      (∀ u ∈ st.edges, ∃ x y : Int, u = edge_key x y) →
      ∀ st' : ReadState,
        List.foldlM read_line st lines = some st' →
        ([a] ∈ st.edges ∨ (t :: s1 :: s2 :: rest) ∈ lines) →
        [a] ∈ st'.edges := by
  intro lines
  induction lines with
  | nil =>
    intro st hinv st' hfold hd
    have hst : st = st' := by simpa using hfold
    rcases hd with hmem | hmem
    · exact hst ▸ hmem
    · simp at hmem
  | cons l ls ih =>
    intro st hinv st' hfold hd
    rw [List.foldlM_cons] at hfold
    rcases Option.bind_eq_some.mp hfold with ⟨st1, hline, hrest⟩
    have hinv1 := read_line_inv st l st1 hinv hline
    rcases hd with hmem | hmem
    · exact ih st1 hinv1 st' hrest
        (.inl (read_line_mem st l st1 hline _ hmem))
    · rcases List.mem_cons.mp hmem with rfl | hmem'
      · exact ih st1 hinv1 st' hrest
          (.inl (read_line_selfloop st t s1 s2 rest a st1 ht1 ht2 h1 h2
            hinv hline))
      · exact ih st1 hinv1 st' hrest (.inr hmem')

/-- A self-loop line in an otherwise successfully parsed input leaves the
one-element tuple `[a]` in the stored edge set. -/
theorem read_stream_selfloop (lines : List (List String)) (g : Graph)
    (t s1 s2 : String) (rest : List String) (a : Int)
    (ht1 : t ≠ "p") (ht2 : t ≠ "c")
    (h1 : py_int s1 = some a) (h2 : py_int s2 = some a)
    (hline : (t :: s1 :: s2 :: rest) ∈ lines)
    (h : read_stream lines = some g) :
    [a] ∈ g.edges := by
  rw [read_stream] at h
  rcases Option.bind_eq_some.mp h with ⟨st', hfold, hpure⟩
  cases Option.some.inj hpure
  exact read_go_selfloop t s1 s2 rest a ht1 ht2 h1 h2 lines ⟨0, -1, []⟩
    (by simp) st' hfold (.inr hline)

end Gr

/-! ### Literal ranges (claim C7 machinery) -/

namespace Auct

open Wcnf

theorem first_index_lt (l : List Bid) (b : Bid) (h : b ∈ l) :
    first_index l b < l.length := by
  induction l with
  | nil => simp at h
  | cons x xs ih =>
    rw [first_index]
    by_cases hx : x = b
    · simp [hx]
    · rw [if_neg hx]
      rcases List.mem_cons.mp h with rfl | h'
      · exact absurd rfl hx
      · simpa using ih h'

theorem softFrom_mem (bids : List Bid) (cw : List Int × Int)
    (h : cw ∈ softFrom 0 bids) :
    ∃ i : Nat, i < bids.length ∧ cw.1 = [((i + 1 : Nat) : Int)] := by
  rw [softFrom_eq_range bids 0] at h
  rcases List.mem_map.mp h with ⟨i, hi, rfl⟩
  exact ⟨i, List.mem_range.mp hi, by simp⟩

theorem auction_lits_in_range (auctioneers : List String) (bids : List Bid)
    (flag : Bool) : litsInRange (auction_formula auctioneers bids flag) := by
  have hincomp : ∀ c ∈ (incompat_formula bids).hard, ∀ l ∈ c,
      1 ≤ l.natAbs ∧ l.natAbs ≤ bids.length := by
    intro c hc l hl
    rcases manage_incompatibilities_mem_inv _ _ c hc with
      h0 | ⟨p, hp, q, hq, rfl, _, _⟩
    · rw [build_bids_hard] at h0
      simp at h0
    · have hpb := build_bids_goods_mem bids p hp
      have hqb := build_bids_goods_mem bids q hq
      rcases List.mem_cons.mp hl with rfl | hl'
      · omega
      · rcases List.mem_cons.mp hl' with rfl | hl''
        · omega
        · simp at hl''
  have hauct : ∀ (a : String), ∀ l ∈ auctions_of_auctioneer bids a,
      1 ≤ l.natAbs ∧ l.natAbs ≤ bids.length := by
    intro a l hl
    rcases List.mem_map.mp hl with ⟨b, hb, rfl⟩
    have hblt : first_index bids b < bids.length :=
      first_index_lt bids b (List.mem_of_mem_filter hb)
    omega
  constructor
  · intro c hc l hl
    rw [auction_formula_num_vars]
    cases flag
    · rw [auction_formula_false_hard] at hc
      rcases List.mem_append.mp hc with hc | hc
      · exact hincomp c hc l hl
      · rcases List.mem_map.mp hc with ⟨a, _, rfl⟩
        exact hauct a l hl
    · rw [auction_formula_true] at hc
      exact hincomp c hc l hl
  · intro cw hcw l hl
    rw [auction_formula_num_vars]
    rw [auction_formula_soft] at hcw
    rcases softFrom_mem bids cw hcw with ⟨i, hi, hcw1⟩
    rw [hcw1] at hl
    rcases List.mem_singleton.mp hl with rfl
    simp [Int.natAbs_ofNat]
    omega

end Auct

namespace Gr

open Wcnf

theorem node_vars_mem (n v : Nat) : v ∈ node_vars n ↔ 1 ≤ v ∧ v ≤ n := by
  rw [node_vars]
  constructor
  · intro h
    rcases List.mem_map.mp h with ⟨i, hi, rfl⟩
    have := List.mem_range.mp hi
    omega
  · intro h
    exact List.mem_map.mpr ⟨v - 1, List.mem_range.mpr (by omega), by omega⟩

theorem cut_soft_mem (edges : List (List Int)) (cw : List Int × Int)
    (h : cw ∈ cut_soft edges) :
    ∃ e ∈ edges, cw = (e, 1) ∨ cw = (e.map (fun l => -l), 1) := by
  induction edges with
  | nil => simp [cut_soft] at h
  | cons e es ih =>
    rw [cut_soft] at h
    rcases List.mem_cons.mp h with rfl | h'
    · exact ⟨e, List.mem_cons_self _ _, .inl rfl⟩
    · rcases List.mem_cons.mp h' with rfl | h''
      · exact ⟨e, List.mem_cons_self _ _, .inr rfl⟩
      · rcases ih h'' with ⟨e', he', hcase⟩
        exact ⟨e', List.mem_cons_of_mem _ he', hcase⟩

theorem mvc_lits_in_range (g : Graph) (hwf : WellFormed g)
    (F : WCNFFormula) (hF : min_vertex_cover_formula g = some F) :
    litsInRange F := by
  rw [mvc_formula_eq g hwf] at hF
  cases Option.some.inj hF
  constructor
  · intro c hc l hl
    rcases wf_edge_shape g hwf c hc with ⟨a, b, rfl, ha1, ha2, hb1, hb2, _⟩
    rcases List.mem_cons.mp hl with rfl | hl'
    · simp only []
      omega
    · rcases List.mem_cons.mp hl' with rfl | hl''
      · simp only []
        omega
      · simp at hl''
  · intro cw hcw l hl
    rcases List.mem_map.mp hcw with ⟨v, hv, rfl⟩
    have hvr := (node_vars_mem _ v).mp hv
    rcases List.mem_singleton.mp hl with rfl
    simp only []
    omega

theorem cut_lits_in_range (g : Graph) (hwf : WellFormed g)
    (F : WCNFFormula) (hF : max_cut_formula g = some F) :
    litsInRange F := by
  rw [cut_formula_eq g hwf] at hF
  cases Option.some.inj hF
  constructor
  · intro c hc l hl
    simp at hc
  · intro cw hcw l hl
    rcases cut_soft_mem g.edges cw hcw with ⟨e, he, hcase⟩
    rcases wf_edge_shape g hwf e he with ⟨a, b, rfl, ha1, ha2, hb1, hb2, _⟩
    rcases hcase with rfl | rfl
    · simp only [] at hl
      rcases List.mem_cons.mp hl with rfl | hl'
      · simp only []; omega
      · rcases List.mem_cons.mp hl' with rfl | hl''
        · simp only []; omega
        · simp at hl''
    · simp only [List.map_cons, List.map_nil] at hl
      rcases List.mem_cons.mp hl with rfl | hl'
      · simp only []; omega
      · rcases List.mem_cons.mp hl' with rfl | hl''
        · simp only []; omega
        · simp at hl''

theorem clique_none_of_zero (g : Graph) (h0 : g.n_nodes.toNat = 0) :
    max_clique_formula g = none := by
  simp only [max_clique_formula, alloc_nodes_eq, h0]
  rfl

theorem clique_lits_in_range (g : Graph) (hwf : WellFormed g)
    (F : WCNFFormula) (hF : max_clique_formula g = some F) :
    litsInRange F := by
  rcases Nat.eq_zero_or_pos g.n_nodes.toNat with h0 | hpos
  · rw [clique_none_of_zero g h0] at hF
    simp at hF
  · have hn : 0 < g.n_nodes := by omega
    rw [clique_formula_eq g hwf hn] at hF
    cases Option.some.inj hF
    have hnum := cl_fold_num_vars (g.edges.map edge_mark)
      (List.range g.n_nodes.toNat) (List.range g.n_nodes.toNat)
      { num_vars := g.n_nodes.toNat, hard := [],
        soft := (node_vars g.n_nodes.toNat).map (fun (v : Nat) => ([(v : Int)], 1)) }
    have hsoft := cl_fold_soft (g.edges.map edge_mark)
      (List.range g.n_nodes.toNat) (List.range g.n_nodes.toNat)
      { num_vars := g.n_nodes.toNat, hard := [],
        soft := (node_vars g.n_nodes.toNat).map (fun (v : Nat) => ([(v : Int)], 1)) }
    constructor
    · intro c hc l hl
      rw [hnum]
      rcases cl_outer_inv (g.edges.map edge_mark) _ c _ _ hc with
        h0' | ⟨i1, hi1, i2, hi2, rfl, hlt, _⟩
      · simp at h0'
      · have hi2' := List.mem_range.mp hi2
        rcases List.mem_cons.mp hl with rfl | hl'
        · simp only []
          omega
        · rcases List.mem_cons.mp hl' with rfl | hl''
          · simp only []
            omega
          · simp at hl''
    · intro cw hcw l hl
      rw [hnum]
      rw [hsoft] at hcw
      simp only [] at hcw
      rcases List.mem_map.mp hcw with ⟨v, hv, rfl⟩
      have hvr := (node_vars_mem _ v).mp hv
      rcases List.mem_singleton.mp hl with rfl
      simp only []
      omega

end Gr





/-! ### The claims -/

open Wcnf Auct Gr

/-- C2: after building an auction formula, for every good `g` and every pair
of distinct bid variables `v1 < v2` both claiming `g` (i.e. both recorded in
the good-ownership set), the hard clause `[-v1, -v2]` is present in the
formula, and the hard clauses present at the end of
`manage_incompatibilities` contain no duplicate (each unordered pair yields
exactly one clause, added only if not already present). -/
theorem claim_C2_incompatibility_clauses (bids : List Bid) :
    (∀ (g : String) (v1 v2 : Nat) (auctioneers : List String) (flag : Bool),
        (g, v1) ∈ (build_bids bids).2 → (g, v2) ∈ (build_bids bids).2 →
        v1 < v2 →
        [-(v1 : Int), -(v2 : Int)] ∈
          (auction_formula auctioneers bids flag).hard) ∧
    (incompat_formula bids).hard.Nodup := by
  constructor
  · intro g v1 v2 auctioneers flag h1 h2 hlt
    have hmem : incomp_clause (g, v1) (g, v2) ∈ (incompat_formula bids).hard :=
      manage_incompatibilities_hits _ _ _ _ h1 h2 rfl hlt
    have hclause : incomp_clause (g, v1) (g, v2) =
        [-(v1 : Int), -(v2 : Int)] := rfl
    rw [hclause] at hmem
    cases flag
    · rw [auction_formula_false_hard]
      exact List.mem_append_left _ hmem
    · rw [auction_formula_true]
      exact hmem
  · rw [incompat_formula, manage_incompatibilities]
    apply nodup_incomp_outer
    rw [build_bids_hard]
    exact List.nodup_nil

/-- Witness for C2 at a concrete auction: two bids on the shared good `g1`
yield the hard clause `[-1, -2]`. -/
theorem claim_C2_incompatibility_clauses_witness :
    ("g1", 1) ∈ (build_bids [sbid1, sbid2]).2 ∧
    ("g1", 2) ∈ (build_bids [sbid1, sbid2]).2 ∧ 1 < 2 ∧
    [-(1 : Int), -(2 : Int)] ∈
      (auction_formula ["A"] [sbid1, sbid2] false).hard :=
  ⟨by decide, by decide, by decide,
    (claim_C2_incompatibility_clauses [sbid1, sbid2]).1 "g1" 1 2 ["A"] false
      (by decide) (by decide) (by decide)⟩

/-- C8: the decoder prints `"Invalid solution"` iff the decoded benefit
strictly exceeds the sum of all soft-clause weights, equivalently iff the
reported optimal cost is negative, and prints `"Valid solution"` otherwise
(the condition is reported as one of the two strings, never raised). -/
theorem claim_C8_validity_report (f : WCNFFormula) (opt : Int) :
    (validity_message f opt = "Invalid solution" ↔
      benefit f opt > f.sum_soft_weights) ∧
    (validity_message f opt = "Invalid solution" ↔ opt < 0) ∧
    (validity_message f opt = "Invalid solution" ∨
      validity_message f opt = "Valid solution") := by
  have hiff : benefit f opt > f.sum_soft_weights ↔ opt < 0 := by
    rw [benefit]; omega
  have hne : ("Valid solution" : String) ≠ "Invalid solution" := by decide
  rw [validity_message]
  split
  · rename_i h
    exact ⟨⟨fun _ => h, fun _ => rfl⟩, ⟨fun _ => hiff.mp h, fun _ => rfl⟩,
      .inl rfl⟩
  · rename_i h
    exact ⟨⟨fun hc => absurd hc hne, fun hc => absurd hc h⟩,
      ⟨fun hc => absurd hc hne, fun hc => absurd (hiff.mpr hc) h⟩, .inr rfl⟩

/-- C9: with the minimum-winning-bids constraint enabled (flag off), a
declared auctioneer that owns no bid contributes an empty hard clause, so
the formula is unsatisfiable and, by the SolverPort contract, the instance
ends in the Infeasible condition regardless of the bids present. -/
theorem claim_C9_bidless_auctioneer_infeasible (auctioneers : List String)
    (bids : List Bid) (a : String) (ha : a ∈ auctioneers)
    (hnone : ∀ b ∈ bids, b.agent ≠ a) :
    [] ∈ (auction_formula auctioneers bids false).hard ∧
    Infeasible (auction_formula auctioneers bids false) := by
  have hempty : auctions_of_auctioneer bids a = [] := by
    rw [auctions_of_auctioneer]
    have hf : bids.filter (fun b => decide (a = b.agent)) = [] := by
      apply List.filter_eq_nil_iff.mpr
      intro b hb
      simp only [decide_eq_true_eq]
      exact fun h => hnone b hb h.symm
    rw [hf]
    rfl
  have hmem : [] ∈ (auction_formula auctioneers bids false).hard := by
    rw [auction_formula_false_hard]
    exact List.mem_append_right _ (List.mem_map.mpr ⟨a, ha, hempty⟩)
  refine ⟨hmem, fun σ hsat => ?_⟩
  have := hsat [] hmem
  simp [clauseSat] at this

/-- Witness for C9: the sole auctioneer `A` owns no bid, the formula gets
the empty hard clause and is infeasible. -/
theorem claim_C9_bidless_auctioneer_infeasible_witness :
    "A" ∈ ["A"] ∧ (∀ b ∈ [sbid4], b.agent ≠ "A") ∧
    [] ∈ (auction_formula ["A"] [sbid4] false).hard ∧
    Infeasible (auction_formula ["A"] [sbid4] false) :=
  ⟨by decide, by decide,
    claim_C9_bidless_auctioneer_infeasible ["A"] [sbid4] "A"
      (by decide) (by decide)⟩

/-- C3 counterexample: with two identical bid rows of auctioneer `A`
(variables 1 and 2), `self.auctions.index(auction)` finds the first row
twice, so the auctioneer clause is `[1, 1]`: it repeats variable 1 and does
not contain variable 2, although bid 2 also belongs to `A`.  The claim that
the clause's literals are the decision variables of all of the auctioneer's
bids therefore fails on duplicate bid rows. -/
theorem claim_C3_counterexample :
    (auction_formula ["A"] [sbid3, sbid3] false).hard = [[1, 1]] ∧
    (2 : Int) ∉ ([1, 1] : List Int) ∧
    (auction_formula ["A"] [sbid3, sbid3] false).num_vars = 2 := by
  refine ⟨by decide, by decide, by decide⟩

/-- C3 (amended): unless the no-minimum-winning-bids mode is requested, the
build appends exactly one hard clause per declared auctioneer; provided the
bid rows are pairwise distinct, that clause's literals are exactly the
positive decision-variable ids (1-based positions in declaration order) of
all bids belonging to that auctioneer.  With the mode requested no such
clause is added. -/
theorem claim_C3_auctioneer_clauses (auctioneers : List String)
    (bids : List Bid) (h : bids.Nodup) :
    ((auction_formula auctioneers bids false).hard =
      (incompat_formula bids).hard ++
        auctioneers.map (fun a => bid_vars_from 1 bids a)) ∧
    ((auction_formula auctioneers bids true).hard =
      (incompat_formula bids).hard) ∧
    (∀ (a : String) (v : Int), v ∈ bid_vars_from 1 bids a ↔
      ∃ i : Nat, i < bids.length ∧ v = 1 + i ∧
        (bids.getD i default).agent = a) := by
  refine ⟨?_, rfl, fun a v => bid_vars_from_mem a bids 1 v⟩
  rw [auction_formula_false_hard]
  congr 1
  apply List.map_congr_left
  intro a _
  exact auctions_of_eq_bid_vars bids a h

/-- Witness for the amended C3: two distinct bids of `A` and `B`; the clause
of `A` is `[1]`, the clause of `B` is `[2]`. -/
theorem claim_C3_auctioneer_clauses_witness :
    ([sbid1, sbid2] : List Bid).Nodup ∧
    (auction_formula ["A", "B"] [sbid1, sbid2] false).hard =
      (incompat_formula [sbid1, sbid2]).hard ++
        ["A", "B"].map (fun a => bid_vars_from 1 [sbid1, sbid2] a) :=
  ⟨by decide,
    (claim_C3_auctioneer_clauses ["A", "B"] [sbid1, sbid2] (by decide)).1⟩

/-- C1: for every auction instance and every solver result `(opt, model)`
satisfying the SolverPort contract (the model's `i`-th entry is `±(i+1)` and
the reported optimal cost is the weight of the soft clauses the model
falsifies), the decoder's benefit `sumSoftWeights() - opt` equals exactly
the sum of the prices of the winning bids — the bids whose variable is
assigned a positive literal — and each winning variable `v` maps back to its
bid record `self.auctions[v-1]` by 1-based position in declaration order. -/
theorem claim_C1_benefit_decoding (auctioneers : List String)
    (bids : List Bid) (flag : Bool) (model : List Int) (opt : Int)
    (hlen : model.length = bids.length)
    (hshape : ∀ (i : Nat) (hi : i < model.length),
      model.get ⟨i, hi⟩ = (i : Int) + 1 ∨ model.get ⟨i, hi⟩ = -((i : Int) + 1))
    (hopt : opt = costFalsified (modelAssign model)
      (auction_formula auctioneers bids flag).soft) :
    winning_records bids model =
      some ((winning_bids model).map
        (fun v => bids.getD (v.toNat - 1) default)) ∧
    benefit (auction_formula auctioneers bids flag) opt =
      (((winning_bids model).map
        (fun v => bids.getD (v.toNat - 1) default)).map Bid.price).sum ∧
    (∀ v ∈ winning_bids model, 1 ≤ v ∧ v ≤ (bids.length : Int)) := by
  have hcanon := model_canonical model bids.length hlen hshape
  have hwin := winning_bids_canonical (modelAssign model) bids.length
  rw [← hcanon] at hwin
  refine ⟨?_, ?_, ?_⟩
  · rw [hcanon, winning_records_canonical bids (modelAssign model), ← hcanon,
      hwin, List.map_map]
    congr 1
  · rw [benefit, hopt, auction_formula_soft, WCNFFormula.sum_soft_weights,
      auction_formula_soft, sum_softFrom_range, cost_softFrom_range, hwin,
      List.map_map, List.map_map]
    have hkey := filter_range_sum (fun i => modelAssign model (i + 1))
      (fun i => (bids.getD i default).price) bids.length
    have hfun : (Bid.price ∘ fun i => bids.getD i default) =
        ((Bid.price ∘ fun v => bids.getD (v.toNat - 1) default) ∘
          fun (i : Nat) => (i : Int) + 1) := by
      funext i
      simp only [Function.comp_apply]
      congr 2
    rw [← hfun]
    have hcomp : (Bid.price ∘ fun i => bids.getD i default) =
        (fun i => (bids.getD i default).price) := rfl
    rw [hcomp]
    omega
  · intro v hv
    rw [hwin] at hv
    rcases List.mem_map.mp hv with ⟨i, hi, rfl⟩
    have hlt : i < bids.length := List.mem_range.mp (List.mem_filter.mp hi).1
    constructor <;> omega

/-- Witness for C1 at a concrete auction: bids of prices 10 and 5 on the
shared good `g1`, model `[1, -2]`, cost 5 — the benefit is 10, the price of
the single winning bid (bid 1). -/
theorem claim_C1_benefit_decoding_witness :
    ([1, -2] : List Int).length = ([sbid1, sbid2] : List Bid).length ∧
    (5 : Int) = costFalsified (modelAssign [1, -2])
      (auction_formula ["A"] [sbid1, sbid2] false).soft ∧
    winning_records [sbid1, sbid2] [1, -2] =
      some ((winning_bids [1, -2]).map
        (fun v => ([sbid1, sbid2] : List Bid).getD (v.toNat - 1) default)) ∧
    benefit (auction_formula ["A"] [sbid1, sbid2] false) 5 =
      (((winning_bids [1, -2]).map
        (fun v => ([sbid1, sbid2] : List Bid).getD (v.toNat - 1) default)).map
          Bid.price).sum := by
  have h := claim_C1_benefit_decoding ["A"] [sbid1, sbid2] false [1, -2] 5
    (by decide)
    (by decide)
    (by decide)
  exact ⟨by decide, by decide, h.1, h.2.1⟩

/-- C5: for every (well-formed) graph, the minimum-vertex-cover formula has
exactly one soft clause `[-node]` of weight 1 per node and exactly one hard
clause `[node_a, node_b]` per edge, and the decoded cover is the list of
nodes whose variable is assigned a positive literal. -/
theorem claim_C5_min_vertex_cover (g : Graph) (hwf : WellFormed g) :
    min_vertex_cover_formula g = some
      { num_vars := g.n_nodes.toNat,
        hard := g.edges,
        soft := (node_vars g.n_nodes.toNat).map
          (fun (v : Nat) => ([-(v : Int)], 1)) } ∧
    (∀ (model : List Int) (v : Int),
      v ∈ graph_decode model ↔ v ∈ model ∧ 0 < v) := by
  refine ⟨mvc_formula_eq g hwf, fun model v => ?_⟩
  rw [graph_decode, List.mem_filter]
  simp

/-- Witness for C5 on the path 1 - 2 - 3. -/
theorem claim_C5_min_vertex_cover_witness :
    WellFormed sgPath ∧
    min_vertex_cover_formula sgPath = some
      { num_vars := sgPath.n_nodes.toNat,
        hard := sgPath.edges,
        soft := (node_vars sgPath.n_nodes.toNat).map
          (fun (v : Nat) => ([-(v : Int)], 1)) } :=
  ⟨by decide, (claim_C5_min_vertex_cover sgPath (by decide)).1⟩

/-- C6 counterexample: on the single-edge graph, under the assignment that
sets exactly node 1 true (so the edge's endpoints differ in truth value),
the max-cut soft clauses cost 0, not 1 as the claim states. -/
theorem claim_C6_counterexample :
    (max_cut_formula sgEdge).map (fun F => costFalsified sAssign1 F.soft) =
      some 0 ∧ (0 : Int) ≠ 1 :=
  ⟨by decide, by decide⟩

/-- C6 (amended): for every (well-formed) graph, the maximum-cut formula
contains, for each edge `(a, b)`, exactly two soft clauses `[a, b]` and
`[-a, -b]`, each with weight 1, and no hard clauses at all; consequently an
edge contributes falsified cost 0 when its endpoints differ in truth value
and cost 1 when they agree. -/
theorem claim_C6_max_cut (g : Graph) (hwf : WellFormed g) :
    max_cut_formula g = some
      { num_vars := g.n_nodes.toNat, hard := [],
        soft := cut_soft g.edges } ∧
    (∀ σ : Nat → Bool, costFalsified σ (cut_soft g.edges) =
      (g.edges.map (cut_edge_cost σ)).sum) ∧
    (∀ (model : List Int) (v : Int),
      v ∈ graph_decode model ↔ v ∈ model ∧ 0 < v) := by
  refine ⟨cut_formula_eq g hwf, fun σ => ?_, fun model v => ?_⟩
  · apply cut_cost
    intro e he
    rcases wf_edge_shape g hwf e he with ⟨a, b, rfl, h1, _, h3, _, _⟩
    exact ⟨a, b, rfl, h1, h3⟩
  · rw [graph_decode, List.mem_filter]
    simp

/-- Witness for the amended C6 on the single-edge graph. -/
theorem claim_C6_max_cut_witness :
    WellFormed sgEdge ∧
    max_cut_formula sgEdge = some
      { num_vars := sgEdge.n_nodes.toNat, hard := [],
        soft := cut_soft sgEdge.edges } ∧
    costFalsified sAssign1 (cut_soft sgEdge.edges) =
      (sgEdge.edges.map (cut_edge_cost sAssign1)).sum := by
  have h := claim_C6_max_cut sgEdge (by decide)
  exact ⟨by decide, h.1, h.2.1 sAssign1⟩

/-- C4 counterexample: on the empty graph (`p edge 0 0`) `max_clique`
produces no formula at all — the stale loop variable `n` is unbound and the
Python call dies with `NameError` — so the claim's universally quantified
description of "the maximum-clique formula" fails at this graph. -/
theorem claim_C4_counterexample :
    sgEmpty.n_nodes = 0 ∧ max_clique_formula sgEmpty = none :=
  ⟨by decide, by decide⟩

/-- C4 (amended): for every (well-formed) graph with at least one node, the
maximum-clique formula contains, for each node, a soft clause `[node]` with
weight 1 and, for every pair of distinct nodes with no edge between them,
the hard clause `[-node_a, -node_b]`; no other hard clauses are added, and
the decoded clique is the list of nodes assigned true. -/
theorem claim_C4_max_clique (g : Graph) (hwf : WellFormed g)
    (hn : 0 < g.n_nodes) :
    ∃ F, max_clique_formula g = some F ∧
      F.num_vars = g.n_nodes.toNat ∧
      F.soft = (node_vars g.n_nodes.toNat).map
        (fun (v : Nat) => ([(v : Int)], 1)) ∧
      (∀ a b : Int, 1 ≤ a → a < b → b ≤ g.n_nodes →
        [a, b] ∉ g.edges → [b, a] ∉ g.edges → [-a, -b] ∈ F.hard) ∧
      (∀ c ∈ F.hard, ∃ a b : Int, 1 ≤ a ∧ a < b ∧ b ≤ g.n_nodes ∧
        [a, b] ∉ g.edges ∧ [b, a] ∉ g.edges ∧ c = [-a, -b]) ∧
      (∀ (model : List Int) (v : Int),
        v ∈ graph_decode model ↔ v ∈ model ∧ 0 < v) := by
  have hnn : 0 ≤ g.n_nodes := hwf.1
  refine ⟨_, clique_formula_eq g hwf hn, ?_, ?_, ?_, ?_, ?_⟩
  · exact cl_fold_num_vars _ _ _ _
  · exact cl_fold_soft _ _ _ _
  · intro a b h1 hab hb hne1 hne2
    have hmark : (a.toNat - 1, b.toNat - 1) ∉ g.edges.map edge_mark := by
      rw [mark_mem_iff g hwf a b h1 hab hb]
      rintro (h | h)
      · exact hne1 h
      · exact hne2 h
    have hmem := cl_outer_hits (g.edges.map edge_mark)
      (List.range g.n_nodes.toNat) (a.toNat - 1) (b.toNat - 1)
      (List.mem_range.mpr (by omega)) (by omega) hmark
      (List.range g.n_nodes.toNat)
      { num_vars := g.n_nodes.toNat, hard := [],
        soft := (node_vars g.n_nodes.toNat).map
          (fun (v : Nat) => ([(v : Int)], 1)) }
      (List.mem_range.mpr (by omega))
    have hca : -(((a.toNat - 1 : Nat) : Int) + 1) = -a := by omega
    have hcb : -(((b.toNat - 1 : Nat) : Int) + 1) = -b := by omega
    rw [hca, hcb] at hmem
    exact hmem
  · intro c hc
    rcases cl_outer_inv (g.edges.map edge_mark) _ c _ _ hc with
      h0 | ⟨i1, hi1, i2, hi2, rfl, hlt, hmark⟩
    · simp at h0
    · have hi1' := List.mem_range.mp hi1
      have hi2' := List.mem_range.mp hi2
      have hpair : ((((i1 : Int) + 1).toNat - 1), (((i2 : Int) + 1).toNat - 1))
          = (i1, i2) := by
        rw [Prod.mk.injEq]
        omega
      refine ⟨(i1 : Int) + 1, (i2 : Int) + 1, by omega, by omega, by omega,
        ?_, ?_, rfl⟩
      · intro hedge
        apply hmark
        have := (mark_mem_iff g hwf ((i1 : Int) + 1) ((i2 : Int) + 1)
          (by omega) (by omega) (by omega)).mpr (.inl hedge)
        rwa [hpair] at this
      · intro hedge
        apply hmark
        have := (mark_mem_iff g hwf ((i1 : Int) + 1) ((i2 : Int) + 1)
          (by omega) (by omega) (by omega)).mpr (.inr hedge)
        rwa [hpair] at this
  · intro model v
    rw [graph_decode, List.mem_filter]
    simp

/-- Witness for the amended C4 on the two-node edgeless graph: the
non-adjacent pair (1, 2) gets the hard clause `[-1, -2]`. -/
theorem claim_C4_max_clique_witness :
    WellFormed sgTwo ∧ (0 : Int) < sgTwo.n_nodes ∧
    (∃ F, max_clique_formula sgTwo = some F ∧
      F.num_vars = sgTwo.n_nodes.toNat ∧
      F.soft = (node_vars sgTwo.n_nodes.toNat).map
        (fun (v : Nat) => ([(v : Int)], 1)) ∧
      (∀ a b : Int, 1 ≤ a → a < b → b ≤ sgTwo.n_nodes →
        [a, b] ∉ sgTwo.edges → [b, a] ∉ sgTwo.edges → [-a, -b] ∈ F.hard) ∧
      (∀ c ∈ F.hard, ∃ a b : Int, 1 ≤ a ∧ a < b ∧ b ≤ sgTwo.n_nodes ∧
        [a, b] ∉ sgTwo.edges ∧ [b, a] ∉ sgTwo.edges ∧ c = [-a, -b]) ∧
      (∀ (model : List Int) (v : Int),
        v ∈ graph_decode model ↔ v ∈ model ∧ 0 < v)) :=
  ⟨by decide, by decide,
    claim_C4_max_clique sgTwo (by decide) (by decide)⟩

/-- C7: for every formula constructed by any of the four reducers —
auction, vertex cover (when it is produced), clique, cut — every literal of
every hard or soft clause refers to a variable id in `[1, variables]`. -/
theorem claim_C7_literals_in_range (auctioneers : List String)
    (bids : List Bid) (flag : Bool) (g : Graph) (hwf : WellFormed g) :
    litsInRange (auction_formula auctioneers bids flag) ∧
    (∀ F, min_vertex_cover_formula g = some F → litsInRange F) ∧
    (∀ F, max_clique_formula g = some F → litsInRange F) ∧
    (∀ F, max_cut_formula g = some F → litsInRange F) :=
  ⟨auction_lits_in_range auctioneers bids flag,
    fun F hF => mvc_lits_in_range g hwf F hF,
    fun F hF => clique_lits_in_range g hwf F hF,
    fun F hF => cut_lits_in_range g hwf F hF⟩

/-- Witness for C7 on a concrete auction and the path graph. -/
theorem claim_C7_literals_in_range_witness :
    WellFormed sgPath ∧
    litsInRange (auction_formula ["A"] [sbid1, sbid2] false) :=
  ⟨by decide,
    (claim_C7_literals_in_range ["A"] [sbid1, sbid2] false sgPath
      (by decide)).1⟩

/-- C10: a graph-input edge line whose two node tokens parse to the same
number is stored as a one-element edge tuple (the frozenset collapses), and
each of the three graph operations then fails — returns no formula — when
unpacking that tuple into two endpoints, instead of rejecting or ignoring
the self-loop. -/
theorem claim_C10_selfloop_unpacking (lines : List (List String)) (g : Graph)
    (t s1 s2 : String) (rest : List String) (a : Int)
    (ht1 : t ≠ "p") (ht2 : t ≠ "c")
    (h1 : py_int s1 = some a) (h2 : py_int s2 = some a)
    (hline : (t :: s1 :: s2 :: rest) ∈ lines)
    (h : read_stream lines = some g) :
    [a] ∈ g.edges ∧
    min_vertex_cover_formula g = none ∧
    max_clique_formula g = none ∧
    max_cut_formula g = none := by
  have hmem := read_stream_selfloop lines g t s1 s2 rest a ht1 ht2 h1 h2
    hline h
  have hbad : ∀ x y : Int, ([a] : List Int) ≠ [x, y] := by
    intro x y hxy
    simp at hxy
  exact ⟨hmem, mvc_formula_fail g [a] hmem hbad,
    clique_formula_fail g [a] hmem hbad, cut_formula_fail g [a] hmem hbad⟩

/-- Witness for C10 on the concrete input `p edge 2 2 / e 1 1 / e 1 2`. -/
theorem claim_C10_selfloop_unpacking_witness :
    ("e" : String) ≠ "p" ∧ ("e" : String) ≠ "c" ∧
    py_int "1" = some 1 ∧
    (("e" :: "1" :: "1" :: []) ∈ sLoopLines) ∧
    read_stream sLoopLines = some ⟨2, [[1], [1, 2]]⟩ ∧
    ([(1 : Int)] ∈ (Graph.mk 2 [[1], [1, 2]]).edges ∧
      min_vertex_cover_formula ⟨2, [[1], [1, 2]]⟩ = none ∧
      max_clique_formula ⟨2, [[1], [1, 2]]⟩ = none ∧
      max_cut_formula ⟨2, [[1], [1, 2]]⟩ = none) :=
  ⟨by decide, by decide, by decide, by decide, by decide,
    claim_C10_selfloop_unpacking sLoopLines ⟨2, [[1], [1, 2]]⟩ "e" "1" "1"
      [] 1 (by decide) (by decide) (by decide) (by decide) (by decide)
      (by decide)⟩
